import Mathlib

/-!
The xiter library: push-style sequences, `Zip`, `MergeFunc`, `Windows`, `Chunks`.

A shallow embedding of `transform.go` and `source.go`.

A Go `Seq[T]` is `func(yield func(T) bool) bool`.  The consumer `yield` is a
closure with its own mutable state, so here a consumer is a state-passing
function `σ → T → σ × Bool` and a sequence maps a consumer and the consumer's
initial state to the final consumer state and the sequence's own result.
-/

namespace Xiter

/-- A push-style sequence `func(yield func(T) bool) bool`, for a consumer whose
state has type `σ`. -/
def Seq (T : Type) : Type 1 :=
  (σ : Type) → (σ → T → σ × Bool) → σ → σ × Bool

/-- The loop `for _, v := range s { if !yield(v) { return false } }; return false`
of `Slice`. -/
def sliceLoop {T σ : Type} (yield : σ → T → σ × Bool) : List T → σ → σ × Bool
  | [], st => (st, false)
  | v :: rest, st =>
    let r := yield st v
    if !r.2 then (r.1, false) else sliceLoop yield rest r.1

/-- The function `Slice` of `source.go`: a sequence over the elements of `s`. -/
def Slice {T : Type} (s : List T) : Seq T :=
  fun _ yield st => sliceLoop yield s st

/-- Modelled from the spec: `Collect` is not among the source files; the spec
names it as the helper "collecting a sequence into a buffer".  It is a full
traversal: its consumer appends every value and always answers continue. -/
def Collect {T : Type} (seq : Seq T) : List T :=
  (seq (List T) (fun acc v => (acc ++ [v], true)) []).1

/-- Modelled from the spec: the pull handle made by `Pull`, which is not among
the source files.  Per the spec the stepping side receives the elements
"strictly in the order the underlying sequence would have produced them via
direct invocation"; the handle holds the elements of that direct traversal
which have not been handed over yet. -/
structure PullHandle (T : Type) where
  pending : List T

/-- Modelled from the spec: `Pull` (absent from the source files) turns a
sequence into a stepping function; "stepping until presence=false yields
exactly the same elements in the same order as direct push-style traversal".
The stop function it also returns releases the producer task and has no
effect on the values, so it is not represented. -/
def Pull {T : Type} (seq : Seq T) : PullHandle T :=
  ⟨Collect seq⟩

/-- Modelled from the spec: the stepping function of a pull handle returns
the next element with presence `true`; once the sequence is exhausted it
"returns the zero value with presence = false", and so do all later calls.
The zero value of `T` is `default`. -/
def PullHandle.next {T : Type} [Inhabited T] (p : PullHandle T) :
    (T × Bool) × PullHandle T :=
  match p.pending with
  | [] => ((default, false), p)
  | v :: rest => ((v, true), ⟨rest⟩)

/-- What a handle together with a fetched head still has to deliver, counted
in elements: the variant of the loops of `MergeFunc` and `Zip`. -/
def headCount {T : Type} (ok : Bool) (p : PullHandle T) : Nat :=
  (if ok then 1 else 0) + p.pending.length

/-- The loop `for ok1 || ok2 { ... }` of `MergeFunc`, with the heads
`v1, ok1`, `v2, ok2` and the two pull handles as explicit loop state. -/
def mergeLoop {T σ : Type} [Inhabited T] (compare : T → T → Int)
    (yield : σ → T → σ × Bool)
    (v1 : T) (ok1 : Bool) (p1 : PullHandle T)
    (v2 : T) (ok2 : Bool) (p2 : PullHandle T) (st : σ) : σ × Bool :=
  if hloop : (ok1 || ok2) = true then
    let c : Int := if ok1 && ok2 then compare v1 v2 else 0
    if h1 : (!ok2 || decide (c < 0)) = true then
      let r := yield st v1
      if !r.2 then (r.1, false)
      else
        let n1 := p1.next
        mergeLoop compare yield n1.1.1 n1.1.2 n1.2 v2 ok2 p2 r.1
    else if h2 : (!ok1 || decide (c > 0)) = true then
      let r := yield st v2
      if !r.2 then (r.1, false)
      else
        let n2 := p2.next
        mergeLoop compare yield v1 ok1 p1 n2.1.1 n2.1.2 n2.2 r.1
    else
      let r1 := yield st v1
      if !r1.2 then (r1.1, false)
      else
        let r2 := yield r1.1 v2
        if !r2.2 then (r2.1, false)
        else
          let n1 := p1.next
          let n2 := p2.next
          mergeLoop compare yield n1.1.1 n1.1.2 n1.2 n2.1.1 n2.1.2 n2.2 r2.1
  else (st, false)
termination_by headCount ok1 p1 + headCount ok2 p2
decreasing_by
  · have hk : ok1 = true := by
      cases ok1 <;> cases ok2 <;> simp_all [c]
    subst hk
    simp only [headCount, PullHandle.next]
    rcases p1 with ⟨_ | ⟨a, l⟩⟩ <;> simp
  · have hk : ok2 = true := by
      cases ok1 <;> cases ok2 <;> simp_all [c]
    subst hk
    simp only [headCount, PullHandle.next]
    rcases p2 with ⟨_ | ⟨a, l⟩⟩ <;> simp
  · have hk : ok1 = true ∧ ok2 = true := by
      cases ok1 <;> cases ok2 <;> simp_all [c]
    obtain ⟨hk1, hk2⟩ := hk
    subst hk1 hk2
    simp only [headCount, PullHandle.next]
    rcases p1 with ⟨_ | ⟨a, l⟩⟩ <;> rcases p2 with ⟨_ | ⟨b, m⟩⟩ <;> simp <;> omega

/-- The function `MergeFunc` of `transform.go`: both inputs are pulled, the
first heads are fetched, and the loop runs. -/
def MergeFunc {T : Type} [Inhabited T] (seq1 seq2 : Seq T) (compare : T → T → Int) :
    Seq T :=
  fun _ yield st =>
    let p1 := Pull seq1
    let p2 := Pull seq2
    let n1 := p1.next
    let n2 := p2.next
    mergeLoop compare yield n1.1.1 n1.1.2 n1.2 n2.1.1 n2.1.2 n2.2 st

/-- The type `Zipped` of `transform.go`: the values of one step of `Zip` with their
presence flags. -/
structure Zipped (T1 T2 : Type) where
  V1 : T1
  OK1 : Bool
  V2 : T2
  OK2 : Bool

/-- The loop `for { ... }` of `Zip`, with the two pull handles as explicit
loop state. -/
def zipLoop {T1 T2 σ : Type} [Inhabited T1] [Inhabited T2]
    (yield : σ → Zipped T1 T2 → σ × Bool)
    (p1 : PullHandle T1) (p2 : PullHandle T2) (st : σ) : σ × Bool :=
  let n1 := p1.next
  let n2 := p2.next
  let val : Zipped T1 T2 := ⟨n1.1.1, n1.1.2, n2.1.1, n2.1.2⟩
  if hend : (!val.OK1 && !val.OK2) = true then (st, false)
  else
    let r := yield st val
    if !r.2 then (r.1, false) else zipLoop yield n1.2 n2.2 r.1
termination_by p1.pending.length + p2.pending.length
decreasing_by
  rcases p1 with ⟨_ | ⟨a, l⟩⟩ <;> rcases p2 with ⟨_ | ⟨b, m⟩⟩ <;>
    simp_all [val, n1, n2, PullHandle.next]
  omega

/-- The function `Zip` of `transform.go`: both inputs are pulled and the loop
runs. -/
def Zip {T1 T2 : Type} [Inhabited T1] [Inhabited T2] (seq1 : Seq T1) (seq2 : Seq T2) :
    Seq (Zipped T1 T2) :=
  fun _ yield st =>
    let p1 := Pull seq1
    let p2 := Pull seq2
    zipLoop yield p1 p2 st

/-- The pair the claim describes at position `i` (0-based) for inputs `A` and
`B`: each side carries its `i`-th element and presence `true` while `i` is
within its length, the zero value and presence `false` beyond. -/
def zipAt {T1 T2 : Type} [Inhabited T1] [Inhabited T2] (A : List T1) (B : List T2)
    (i : Nat) : Zipped T1 T2 :=
  ⟨A.getD i default, decide (i < A.length), B.getD i default, decide (i < B.length)⟩

/-- The contents of `dst` after Go's built-in `copy(dst, src)`: the first
`min(len(dst), len(src))` elements of `dst` are replaced by those of `src`
(overlapping arguments are handled as if `src` were read first). -/
def goCopy {T : Type} (dst src : List T) : List T :=
  src.take dst.length ++ dst.drop src.length

/-- The callback that `Windows` passes to its source.  Its state is the
state of the outer consumer together with the buffer `win`; the value handed
to `yield` is the contents of the buffer at that moment. -/
def windowsStep {T σ : Type} (n : Int) (yield : σ → List T → σ × Bool) :
    σ × List T → T → (σ × List T) × Bool :=
  fun s v =>
    let st := s.1
    let win := s.2
    if (win.length : Int) < n - 1 then ((st, win ++ [v]), true)
    else if (win.length : Int) < n then
      let win1 := win ++ [v]
      let r := yield st win1
      ((r.1, win1), r.2)
    else
      let win1 := (goCopy win (win.drop 1)).set (win.length - 1) v
      let r := yield st win1
      ((r.1, win1), r.2)

/-- The function `Windows` of `transform.go`.  For `n ≤ 0` the Go code panics on its first
element (`win[1:]` of an empty slice, or `make` with a negative capacity);
the statements below are about `n ≥ 1`, where no operation can fail. -/
def Windows {T : Type} (seq : Seq T) (n : Int) : Seq (List T) :=
  fun σ yield st =>
    let r := seq (σ × List T) (windowsStep n yield) (st, [])
    let st1 := r.1.1
    let win := r.1.2
    if (win.length : Int) < n then ((yield st1 win).1, false) else (st1, false)

/-- The callback that `Chunks` passes to its source; the state is as in
`windowsStep`. -/
def chunksStep {T σ : Type} (n : Int) (yield : σ → List T → σ × Bool) :
    σ × List T → T → (σ × List T) × Bool :=
  fun s v =>
    let st := s.1
    let win := if (s.2.length : Int) = n then [] else s.2
    if (win.length : Int) < n - 1 then ((st, win ++ [v]), true)
    else if (win.length : Int) < n then
      let win1 := win ++ [v]
      let r := yield st win1
      ((r.1, win1), r.2)
    else ((st, win), true)

/-- The function `Chunks` of `transform.go`.  As for `Windows`, the statements
below are about `n ≥ 1`. -/
def Chunks {T : Type} (seq : Seq T) (n : Int) : Seq (List T) :=
  fun σ yield st =>
    let r := seq (σ × List T) (chunksStep n yield) (st, [])
    let st1 := r.1.1
    let win := r.1.2
    if (win.length : Int) < n then ((yield st1 win).1, false) else (st1, false)

/-- The state of the callback of `Windows` under a full traversal after the
elements `p` have arrived: the windows recorded so far and the buffer. -/
def winState {T : Type} (n : Nat) (p : List T) : List (List T) × List T :=
  ((List.range (p.length + 1 - n)).map (fun i => (p.drop i).take n), p.drop (p.length - n))

/-- The function `cmp.Compare` of the Go standard library on a linearly ordered type
(integers, bytes): `-1` if `x < y`, `+1` if `x > y`, `0` otherwise. -/
def cmpCompare {T : Type} [LinearOrder T] (x y : T) : Int :=
  if x < y then -1 else if x > y then 1 else 0

/-- The function `Merge` of `transform.go`: `MergeFunc(seq1, seq2, cmp.Compare)`. -/
def Merge {T : Type} [LinearOrder T] [Inhabited T] (seq1 seq2 : Seq T) : Seq T :=
  MergeFunc seq1 seq2 cmpCompare

/-- The function `mergesort` of `xiter_test.go`: split `s` at `len(s)/2` down to length
at most one, wrap each leaf with `Slice`, combine the halves with `Merge`. -/
def mergesort {T : Type} [LinearOrder T] [Inhabited T] (s : List T) : Seq T :=
  if s.length ≤ 1 then Slice s
  else
    Merge (mergesort (s.take (s.length / 2))) (mergesort (s.drop (s.length / 2)))
termination_by s.length
decreasing_by
  · simp only [List.length_take]; omega
  · simp only [List.length_drop]; omega

/-- The list-recursive reference merge, written after the words of the
specification: an empty side gives the other side; for heads `a`, `b` with
`c = compare a b`, `c < 0` takes `a`, `c > 0` takes `b`, and a tie takes `a`,
then `b`, and advances both sides. -/
def refMerge {T : Type} (compare : T → T → Int) : List T → List T → List T
  | [], B => B
  | a :: A, [] => a :: A
  | a :: A, b :: B =>
    if compare a b < 0 then a :: refMerge compare A (b :: B)
    else if compare a b > 0 then b :: refMerge compare (a :: A) B
    else a :: b :: refMerge compare A B
termination_by A B => A.length + B.length

/-- The function `Concat` of `transform.go`: each sequence is driven in turn
with the same consumer, and the result of `seq(yield)` is discarded. -/
def Concat {T : Type} (seqs : List (Seq T)) : Seq T :=
  fun σ yield st => (seqs.foldl (fun s seq => (seq σ yield s).1) st, false)

/-- The callback that `Limit` passes to its source.  Its state is the state
of the outer consumer together with the captured counter `n`. -/
def limitStep {T σ : Type} (yield : σ → T → σ × Bool) : σ × Int → T → (σ × Int) × Bool :=
  fun s v =>
    let r := yield s.1 v
    if !r.2 then ((r.1, s.2), false)
    else ((r.1, s.2 - 1), decide (s.2 - 1 > 0))

/-- The function returned by `Limit(seq, n)` of `transform.go`, with the
captured parameter `n` as explicit state.  The Go closure decrements the
captured `n` in place, so the counter outlives a traversal: one call of the
returned function, begun with the captured counter at `c`, gives the result
of the traversal and the counter it leaves behind.  The first traversal of a
freshly built `Limit(seq, n)` begins with the counter at `n`, every later
traversal with the counter that the earlier ones have left. -/
def Limit {T : Type} (seq : Seq T) (c : Int) (σ : Type) (yield : σ → T → σ × Bool)
    (st : σ) : (σ × Bool) × Int :=
  let r := seq (σ × Int) (limitStep yield) (st, c)
  ((r.1.1, r.2), r.1.2)

/-- A full traversal of the sequence returned by `Limit`, begun with the
captured counter at `c`: the values handed to a recording consumer, and the
counter left behind. -/
def limitCollect {T : Type} (seq : Seq T) (c : Int) : List T × Int :=
  let r := Limit seq c (List T) (fun acc v => (acc ++ [v], true)) []
  (r.1.1, r.2)

/-- A callback instrumented with a counter of its invocations, as seen by
the source that drives it. -/
def counted {T σ : Type} (f : σ → T → σ × Bool) : σ × Nat → T → (σ × Nat) × Bool :=
  fun s v =>
    let r := f s.1 v
    ((r.1, s.2 + 1), r.2)

/-- An unbounded source that honours the stop answer, in the manner of
`for i := 0; ; i++ { if !yield(g(i)) { return false } }`.  The fuel bounds
the number of elements produced; `none` means that the traversal has not
returned within the fuel. -/
def streamLoop {T σ : Type} (g : Nat → T) (yield : σ → T → σ × Bool) :
    Nat → Nat → σ → Option (σ × Bool)
  | 0, _, _ => none
  | fuel + 1, i, st =>
    let r := yield st (g i)
    if !r.2 then some (r.1, false) else streamLoop g yield fuel (i + 1) r.1

/-- A consumer under observation.  Its state carries, besides the state of
the consumer itself, whether the consumer has answered stop and whether it
has been invoked after having answered stop. -/
def monitor {T σ : Type} (yield : σ → T → σ × Bool) :
    σ × Bool × Bool → T → (σ × Bool × Bool) × Bool :=
  fun s v =>
    let r := yield s.1 v
    ((r.1, (s.2.1 || !r.2), (s.2.2 || s.2.1)), r.2)

/-- What `Windows` and `Chunks` have handed to a recording consumer once the
source has returned, from the state `(recorded, win)` of the callback: the
trailing `if len(win) < n { yield(win) }`. -/
def flushed {T : Type} (n : Int) (s : List (List T) × List T) : List (List T) :=
  if (s.2.length : Int) < n then s.1 ++ [s.2] else s.1

/-- A list cut into consecutive pieces of length `n`, the last one possibly
shorter; the empty list has no pieces. -/
def chunksOf {T : Type} (n : Nat) : List T → List (List T)
  | [] => []
  | x :: xs =>
    if h : n = 0 then []
    else (x :: xs).take n :: chunksOf n ((x :: xs).drop n)
termination_by xs => xs.length
decreasing_by
  simp only [List.length_drop, List.length_cons]
  omega

/-- A comparison function is sign-antisymmetric: swapping the arguments
swaps the sign of the result. -/
def SignAntisymm {T : Type} (compare : T → T → Int) : Prop :=
  ∀ x y, compare x y < 0 ↔ 0 < compare y x

/-- A comparison function is transitive on its "not greater" relation. -/
def LeTrans {T : Type} (compare : T → T → Int) : Prop :=
  ∀ x y z, compare x y ≤ 0 → compare y z ≤ 0 → compare x z ≤ 0

/-- A consumer that records every value it is invoked with; it answers
continue on every invocation except its `k`-th, on which it answers stop.
Its state is the record of its invocations so far. -/
def stopAt {T : Type} (k : Nat) : List T → T → List T × Bool :=
  fun log v => (log ++ [v], decide (log.length + 1 ≠ k))

/-- Elements of the first input, tagged with their origin (`false`). -/
def fromLeft {T : Type} (A : List T) : List (T × Bool) :=
  A.map (fun x => (x, false))

/-- Elements of the second input, tagged with their origin (`true`). -/
def fromRight {T : Type} (B : List T) : List (T × Bool) :=
  B.map (fun x => (x, true))

/-- A comparison of tagged elements that looks at the values only. -/
def onValue {T : Type} (compare : T → T → Int) : T × Bool → T × Bool → Int :=
  fun x y => compare x.1 y.1

/-- Stability of a merged, origin-tagged output: no element of the second
input stands before an element of the first input with which it ties. -/
def StableOutput {T : Type} (compare : T → T → Int) (out : List (T × Bool)) : Prop :=
  out.Pairwise (fun x y => ¬ (x.2 = true ∧ y.2 = false ∧ compare y.1 x.1 = 0))

/-! ## Basic facts about traversals -/

section Traversal

variable {T σ : Type}

theorem sliceLoop_collect (xs acc : List T) :
    sliceLoop (fun (a : List T) (v : T) => (a ++ [v], true)) xs acc = (acc ++ xs, false) := by
  induction xs generalizing acc with
  | nil => simp [sliceLoop]
  | cons x xs ih => simp [sliceLoop, ih]

theorem Collect_Slice (xs : List T) : Collect (Slice xs) = xs := by
  simp [Collect, Slice, sliceLoop_collect]

theorem refMerge_nil_right (compare : T → T → Int) (A : List T) :
    refMerge compare A [] = A := by
  cases A <;> simp [refMerge]

theorem next_nil [Inhabited T] :
    PullHandle.next (⟨[]⟩ : PullHandle T) = ((default, false), ⟨[]⟩) := rfl

theorem next_cons [Inhabited T] (v : T) (rest : List T) :
    PullHandle.next ⟨v :: rest⟩ = ((v, true), ⟨rest⟩) := rfl

/-- The loop of `MergeFunc`, started on the heads fetched from two handles,
drives the consumer exactly as a slice over the reference merge of what the
handles held. -/
theorem mergeLoop_next [Inhabited T] (compare : T → T → Int) (yield : σ → T → σ × Bool) :
    ∀ (n : Nat) (l1 l2 : List T) (st : σ), l1.length + l2.length = n →
      mergeLoop compare yield
        (PullHandle.next ⟨l1⟩).1.1 (PullHandle.next ⟨l1⟩).1.2 (PullHandle.next ⟨l1⟩).2
        (PullHandle.next ⟨l2⟩).1.1 (PullHandle.next ⟨l2⟩).1.2 (PullHandle.next ⟨l2⟩).2 st
      = sliceLoop yield (refMerge compare l1 l2) st := by
  intro n
  induction n using Nat.strong_induction_on with
  | _ n ih =>
    intro l1 l2 st hn
    rw [mergeLoop]
    rcases l1 with _ | ⟨a, A⟩ <;> rcases l2 with _ | ⟨b, B⟩
    · simp [next_nil, refMerge, sliceLoop]
    · have h := ih B.length (by simp at hn; omega) [] B (yield st b).1 (by simp)
      simp only [next_nil, refMerge] at h
      simp [next_nil, next_cons, refMerge, sliceLoop, h]
    · have h := ih A.length (by simp at hn; omega) A [] (yield st a).1 (by simp)
      simp only [next_nil, refMerge_nil_right] at h
      simp [next_nil, next_cons, refMerge, sliceLoop, h]
    · have hA := ih (A.length + (b :: B).length) (by simp at hn ⊢; omega) A (b :: B)
        (yield st a).1 rfl
      have hB := ih ((a :: A).length + B.length) (by simp at hn ⊢; omega) (a :: A) B
        (yield st b).1 rfl
      have hAB := ih (A.length + B.length) (by simp at hn ⊢; omega) A B
        (yield (yield st a).1 b).1 rfl
      simp only [next_cons] at hA hB hAB
      simp only [next_cons, refMerge]
      by_cases hlt : compare a b < 0
      · simp [hlt, sliceLoop, hA]
      · by_cases hgt : compare a b > 0
        · simp [hlt, hgt, sliceLoop, hB]
        · simp [hlt, hgt, sliceLoop, hAB]

/-- Whatever the consumer, `MergeFunc` drives it exactly as `Slice` over the
reference merge of the two full traversals does. -/
theorem MergeFunc_eq_sliceLoop [Inhabited T] (seq1 seq2 : Seq T) (compare : T → T → Int)
    (yield : σ → T → σ × Bool) (st : σ) :
    MergeFunc seq1 seq2 compare σ yield st
      = sliceLoop yield (refMerge compare (Collect seq1) (Collect seq2)) st := by
  simp only [MergeFunc, Pull]
  exact mergeLoop_next compare yield _ _ _ st rfl

theorem Collect_MergeFunc [Inhabited T] (seq1 seq2 : Seq T) (compare : T → T → Int) :
    Collect (MergeFunc seq1 seq2 compare)
      = refMerge compare (Collect seq1) (Collect seq2) := by
  simp [Collect, MergeFunc_eq_sliceLoop, sliceLoop_collect]

end Traversal

/-! ## The reference merge: permutation and order -/

section RefMerge

variable {T : Type}

theorem refMerge_perm (compare : T → T → Int) (A B : List T) :
    (refMerge compare A B).Perm (A ++ B) := by
  induction A, B using refMerge.induct compare with
  | case1 B => simp [refMerge]
  | case2 a A => simp [refMerge]
  | case3 a A b B hlt ih =>
    simp only [refMerge, hlt, if_true]
    exact (ih.cons a)
  | case4 a A b B hlt hgt ih =>
    simp only [refMerge, hlt, hgt, if_true, if_false]
    refine (ih.cons b).trans ?_
    exact (@List.perm_middle T b (a :: A) B).symm
  | case5 a A b B hlt hgt ih =>
    simp only [refMerge, hlt, hgt, if_false]
    refine List.Perm.cons a ?_
    refine (ih.cons b).trans ?_
    exact (@List.perm_middle T b A B).symm

theorem mem_refMerge (compare : T → T → Int) (A B : List T) (x : T) :
    x ∈ refMerge compare A B ↔ x ∈ A ∨ x ∈ B := by
  rw [(refMerge_perm compare A B).mem_iff, List.mem_append]

theorem refMerge_pairwise (compare : T → T → Int)
    (hanti : SignAntisymm compare) (htrans : LeTrans compare) (A B : List T)
    (hA : A.Pairwise (fun x y => compare x y ≤ 0))
    (hB : B.Pairwise (fun x y => compare x y ≤ 0)) :
    (refMerge compare A B).Pairwise (fun x y => compare x y ≤ 0) := by
  induction A, B using refMerge.induct compare with
  | case1 B => simpa [refMerge] using hB
  | case2 a A => simpa [refMerge] using hA
  | case3 a A b B hlt ih =>
    simp only [refMerge, hlt, if_true]
    rw [List.pairwise_cons] at hA ⊢
    refine ⟨?_, ih hA.2 hB⟩
    intro y hy
    rcases (mem_refMerge compare A (b :: B) y).1 hy with h | h
    · exact hA.1 y h
    · rcases List.mem_cons.1 h with h | h
      · subst h; omega
      · exact htrans a b y (by omega) ((List.pairwise_cons.1 hB).1 y h)
  | case4 a A b B hlt hgt ih =>
    simp only [refMerge, hlt, hgt, if_true, if_false]
    have hba : compare b a ≤ 0 := by
      have := (hanti b a).2 hgt
      omega
    rw [List.pairwise_cons] at hB ⊢
    refine ⟨?_, ih hA hB.2⟩
    intro y hy
    rcases (mem_refMerge compare (a :: A) B y).1 hy with h | h
    · rcases List.mem_cons.1 h with h | h
      · subst h; exact hba
      · exact htrans b a y hba ((List.pairwise_cons.1 hA).1 y h)
    · exact hB.1 y h
  | case5 a A b B hlt hgt ih =>
    simp only [refMerge, hlt, hgt, if_false]
    have hab : compare a b ≤ 0 := by omega
    have hba : compare b a ≤ 0 := by
      by_contra hc
      have := (hanti a b).2 (by omega)
      omega
    rw [List.pairwise_cons] at hA hB
    rw [List.pairwise_cons, List.pairwise_cons]
    refine ⟨?_, ?_, ih hA.2 hB.2⟩
    · intro y hy
      rcases List.mem_cons.1 hy with h | h
      · subst h; exact hab
      · rcases (mem_refMerge compare A B y).1 h with h | h
        · exact hA.1 y h
        · exact htrans a b y hab (hB.1 y h)
    · intro y hy
      rcases (mem_refMerge compare A B y).1 hy with h | h
      · exact htrans b a y hba (hA.1 y h)
      · exact hB.1 y h

theorem chain_iff_pairwise_of_trans (compare : T → T → Int) (htrans : LeTrans compare)
    (xs : List T) :
    xs.Chain' (fun x y => compare x y ≤ 0) ↔ xs.Pairwise (fun x y => compare x y ≤ 0) := by
  haveI : IsTrans T (fun x y => compare x y ≤ 0) := ⟨htrans⟩
  exact List.chain'_iff_pairwise

end RefMerge

/-! ## Claims about `MergeFunc` -/

/-- C1: for all finite inputs `A`, `B` and every comparison function, ordered
inputs or not, the full traversal of `MergeFunc (Slice A) (Slice B) compare`
returns (the loop is a total function: each turn hands over at least one
pending element) and the yielded values are a permutation of `A ++ B`. -/
theorem C1_mergeFunc_perm {T : Type} [Inhabited T] (A B : List T) (compare : T → T → Int) :
    (Collect (MergeFunc (Slice A) (Slice B) compare)).Perm (A ++ B) := by
  rw [Collect_MergeFunc, Collect_Slice, Collect_Slice]
  exact refMerge_perm compare A B

/-- C2: when `compare` is sign-antisymmetric and transitive and `A`, `B` are
each non-decreasing under it, every adjacent pair `x, y` of the output of
`MergeFunc (Slice A) (Slice B) compare` has `compare x y ≤ 0`. -/
theorem C2_mergeFunc_sorted {T : Type} [Inhabited T] (A B : List T) (compare : T → T → Int)
    (hanti : SignAntisymm compare) (htrans : LeTrans compare)
    (hA : A.Chain' (fun x y => compare x y ≤ 0))
    (hB : B.Chain' (fun x y => compare x y ≤ 0)) :
    (Collect (MergeFunc (Slice A) (Slice B) compare)).Chain'
      (fun x y => compare x y ≤ 0) := by
  rw [Collect_MergeFunc, Collect_Slice, Collect_Slice]
  rw [chain_iff_pairwise_of_trans compare htrans] at hA hB ⊢
  exact refMerge_pairwise compare hanti htrans A B hA hB

/-- C5: for all finite `A`, `B` and every `compare`, the full traversal of
`MergeFunc (Slice A) (Slice B) compare` equals the list-recursive reference
merge `refMerge compare A B` (on a tie both heads, left first, and both
sides advance). -/
theorem C5_mergeFunc_eq_refMerge {T : Type} [Inhabited T] (A B : List T)
    (compare : T → T → Int) :
    Collect (MergeFunc (Slice A) (Slice B) compare) = refMerge compare A B := by
  rw [Collect_MergeFunc, Collect_Slice, Collect_Slice]

/-! ## `Merge` on a linear order and the merge sort built from it -/

section MergeSort

variable {T : Type} [LinearOrder T]

theorem cmpCompare_le_iff (x y : T) : cmpCompare x y ≤ 0 ↔ x ≤ y := by
  unfold cmpCompare
  by_cases h1 : x < y
  · simp [h1, le_of_lt h1]
  · by_cases h2 : x > y
    · simp [h1, h2]
    · have : x = y := le_antisymm (not_lt.1 h2) (not_lt.1 h1)
      simp [this]

theorem cmpCompare_signAntisymm : SignAntisymm (cmpCompare : T → T → Int) := by
  intro x y
  unfold cmpCompare
  by_cases h1 : x < y
  · simp [h1, not_lt_of_lt h1]
  · by_cases h2 : y < x
    · simp [h1, h2]
    · simp [h1, h2]

theorem cmpCompare_leTrans : LeTrans (cmpCompare : T → T → Int) := by
  intro x y z hxy hyz
  rw [cmpCompare_le_iff] at *
  exact le_trans hxy hyz

theorem pairwise_cmpCompare_iff (xs : List T) :
    xs.Pairwise (fun x y => cmpCompare x y ≤ 0) ↔ xs.Pairwise (fun x y => x ≤ y) := by
  constructor <;> intro h <;> refine h.imp ?_ <;> intro a b hab
  · exact (cmpCompare_le_iff a b).1 hab
  · exact (cmpCompare_le_iff a b).2 hab

theorem Collect_Merge [Inhabited T] (seq1 seq2 : Seq T) :
    Collect (Merge seq1 seq2) = refMerge cmpCompare (Collect seq1) (Collect seq2) := by
  simp [Merge, Collect_MergeFunc]

theorem Collect_mergesort_perm_sorted [Inhabited T] :
    ∀ (n : Nat) (s : List T), s.length = n →
      (Collect (mergesort s)).Perm s ∧ (Collect (mergesort s)).Pairwise (fun x y => x ≤ y) := by
  intro n
  induction n using Nat.strong_induction_on with
  | _ n ih =>
    intro s hn
    rw [mergesort]
    by_cases hle : s.length ≤ 1
    · simp only [hle, if_true, Collect_Slice]
      refine ⟨List.Perm.refl _, ?_⟩
      match s, hle with
      | [], _ => simp
      | [_], _ => simp
    · simp only [hle, if_false, Collect_Merge]
      have hl := ih (s.take (s.length / 2)).length
        (by simp only [List.length_take]; omega) (s.take (s.length / 2)) rfl
      have hr := ih (s.drop (s.length / 2)).length
        (by simp only [List.length_drop]; omega) (s.drop (s.length / 2)) rfl
      constructor
      · refine (refMerge_perm cmpCompare _ _).trans ?_
        refine (List.Perm.append hl.1 hr.1).trans ?_
        rw [List.take_append_drop]
      · rw [← pairwise_cmpCompare_iff]
        exact refMerge_pairwise cmpCompare cmpCompare_signAntisymm cmpCompare_leTrans _ _
          ((pairwise_cmpCompare_iff _).2 hl.2) ((pairwise_cmpCompare_iff _).2 hr.2)

end MergeSort

/-- C3: for every finite slice `s` over a linearly ordered element type
(integers, bytes), the empty and singleton slices included, the full
traversal of `mergesort s` (split in halves down to length at most one,
leaves wrapped with `Slice`, halves combined with `Merge`) is exactly the
ascending sort of `s`: it equals the reference insertion sort. -/
theorem C3_mergesort_eq_sort {T : Type} [LinearOrder T] [Inhabited T] (s : List T) :
    Collect (mergesort s) = s.insertionSort (fun x y => x ≤ y) := by
  have h := Collect_mergesort_perm_sorted s.length s rfl
  refine List.eq_of_perm_of_sorted (r := fun x y => x ≤ y) ?_ h.2
    (List.sorted_insertionSort (fun x y => x ≤ y) s)
  exact h.1.trans (List.perm_insertionSort (fun x y => x ≤ y) s).symm

/-! ## Early stop -/

theorem sliceLoop_stopAt {T : Type} (k : Nat) (xs log : List T)
    (hlt : log.length < k) (hle : k ≤ log.length + xs.length) :
    (sliceLoop (stopAt k) xs log).1 = log ++ xs.take (k - log.length) := by
  induction xs generalizing log with
  | nil => simp at hle; omega
  | cons x xs ih =>
    simp only [sliceLoop, stopAt]
    by_cases hk : log.length + 1 = k
    · have : k - log.length = 1 := by omega
      simp [hk, this]
    · have h := ih (log ++ [x]) (by simp; omega) (by simp at hle ⊢; omega)
      simp only [stopAt] at h
      have hsub : k - log.length = (k - (log.length + 1)) + 1 := by omega
      simp [hk, h, hsub]

/-- C6: for all finite `A`, `B`, `compare` and every `k` from 1 to the length
of the full-traversal output, the consumer that answers stop on its `k`-th
invocation only is invoked by `MergeFunc (Slice A) (Slice B) compare` exactly
`k` times, with the first `k` elements of the full-traversal output; when
the heads tie and it stops on the first element (`k = 1`), the second
element of the pair is not yielded. -/
theorem C6_mergeFunc_early_stop {T : Type} [Inhabited T] (A B : List T)
    (compare : T → T → Int) (k : Nat) (h1 : 1 ≤ k)
    (hk : k ≤ (Collect (MergeFunc (Slice A) (Slice B) compare)).length) :
    (MergeFunc (Slice A) (Slice B) compare (List T) (stopAt k) []).1
        = (Collect (MergeFunc (Slice A) (Slice B) compare)).take k
      ∧ (MergeFunc (Slice A) (Slice B) compare (List T) (stopAt k) []).1.length = k
      ∧ (∀ a A1 b B1, A = a :: A1 → B = b :: B1 → compare a b = 0 → k = 1 →
          (MergeFunc (Slice A) (Slice B) compare (List T) (stopAt k) []).1 = [a]) := by
  have hlog : (MergeFunc (Slice A) (Slice B) compare (List T) (stopAt k) []).1
      = (Collect (MergeFunc (Slice A) (Slice B) compare)).take k := by
    rw [MergeFunc_eq_sliceLoop, Collect_MergeFunc] at *
    have := sliceLoop_stopAt k (refMerge compare (Collect (Slice A)) (Collect (Slice B))) []
      (by simp; omega) (by simpa using hk)
    simpa using this
  refine ⟨hlog, ?_, ?_⟩
  · rw [hlog, List.length_take]; omega
  · intro a A1 b B1 hA hB hc hk1
    rw [hlog, Collect_MergeFunc, Collect_Slice, Collect_Slice]
    subst hA hB hk1
    simp [refMerge, hc]

/-! ## The tie rule and stability -/

section Stability

variable {T : Type}

theorem refMerge_untag (compare : T → T → Int) (L R : List (T × Bool)) :
    (refMerge (onValue compare) L R).map Prod.fst
      = refMerge compare (L.map Prod.fst) (R.map Prod.fst) := by
  induction L, R using refMerge.induct (onValue compare) with
  | case1 R => simp [refMerge]
  | case2 a L => simp [refMerge]
  | case3 a L b R hlt ih =>
    have hlt2 : compare a.1 b.1 < 0 := hlt
    simp only [refMerge, hlt, if_true, List.map_cons, hlt2] at ih ⊢
    rw [ih]
  | case4 a L b R hlt hgt ih =>
    have hlt2 : ¬ compare a.1 b.1 < 0 := hlt
    have hgt2 : compare a.1 b.1 > 0 := hgt
    simp only [refMerge, hlt, hgt, if_true, if_false, List.map_cons, hlt2, hgt2] at ih ⊢
    rw [ih]
  | case5 a L b R hlt hgt ih =>
    have hlt2 : ¬ compare a.1 b.1 < 0 := hlt
    have hgt2 : ¬ compare a.1 b.1 > 0 := hgt
    simp only [refMerge, hlt, hgt, if_false, List.map_cons, hlt2, hgt2] at ih ⊢
    rw [ih]

theorem pairwise_of_forall_right {α : Type} (P : α → α → Prop) (l : List α)
    (h : ∀ x, ∀ y ∈ l, P x y) : l.Pairwise P := by
  induction l with
  | nil => exact List.Pairwise.nil
  | cons a l ih =>
    refine List.Pairwise.cons (fun y hy => h a y (List.mem_cons_of_mem a hy)) (ih ?_)
    intro x y hy
    exact h x y (List.mem_cons_of_mem a hy)

theorem pairwise_of_forall_left {α : Type} (P : α → α → Prop) (l : List α)
    (h : ∀ x ∈ l, ∀ y, P x y) : l.Pairwise P := by
  induction l with
  | nil => exact List.Pairwise.nil
  | cons a l ih =>
    refine List.Pairwise.cons (fun y _ => h a (List.mem_cons_self a l) y) (ih ?_)
    intro x hx y
    exact h x (List.mem_cons_of_mem a hx) y

theorem refMerge_stable (compare : T → T → Int) (htrans : LeTrans compare)
    (L R : List (T × Bool))
    (hLtag : ∀ x ∈ L, x.2 = false) (hRtag : ∀ y ∈ R, y.2 = true)
    (hL : L.Pairwise (fun x y => compare x.1 y.1 ≤ 0))
    (hno : ∀ b ∈ R, L.Pairwise (fun x y => ¬ (compare x.1 b.1 = 0 ∧ compare y.1 b.1 = 0))) :
    StableOutput compare (refMerge (onValue compare) L R) := by
  unfold StableOutput
  induction L, R using refMerge.induct (onValue compare) with
  | case1 R =>
    simp only [refMerge]
    refine pairwise_of_forall_right _ _ ?_
    intro x y hy hc
    have := hRtag y hy
    simp [this] at hc
  | case2 a L =>
    simp only [refMerge]
    refine pairwise_of_forall_left _ _ ?_
    intro x hx y hc
    have := hLtag x hx
    simp [this] at hc
  | case3 a L b R hlt ih =>
    simp only [refMerge, hlt, if_true]
    refine List.Pairwise.cons ?_ (ih (fun x hx => hLtag x (List.mem_cons_of_mem a hx)) hRtag
      (List.pairwise_cons.1 hL).2 (fun b1 hb1 => (List.pairwise_cons.1 (hno b1 hb1)).2))
    intro y _ hc
    have := hLtag a (List.mem_cons_self a L)
    simp [this] at hc
  | case4 a L b R hlt hgt ih =>
    have hgt2 : 0 < compare a.1 b.1 := hgt
    simp only [refMerge, hlt, hgt, if_true, if_false]
    refine List.Pairwise.cons ?_ (ih hLtag (fun y hy => hRtag y (List.mem_cons_of_mem b hy)) hL
      (fun b1 hb1 => hno b1 (List.mem_cons_of_mem b hb1)))
    intro y hy hc
    rcases (mem_refMerge (onValue compare) (a :: L) R y).1 hy with h | h
    · rcases List.mem_cons.1 h with h | h
      · subst h; omega
      · have hay : compare a.1 y.1 ≤ 0 := (List.pairwise_cons.1 hL).1 y h
        have := htrans a.1 y.1 b.1 hay (by omega)
        omega
    · have := hRtag y (List.mem_cons_of_mem b h)
      simp [this] at hc
  | case5 a L b R hlt hgt ih =>
    have hlt2 : ¬ compare a.1 b.1 < 0 := hlt
    have hgt2 : ¬ 0 < compare a.1 b.1 := hgt
    have hab : compare a.1 b.1 = 0 := by omega
    simp only [refMerge, hlt, hgt, if_false]
    refine List.Pairwise.cons ?_ (List.Pairwise.cons ?_
      (ih (fun x hx => hLtag x (List.mem_cons_of_mem a hx))
        (fun y hy => hRtag y (List.mem_cons_of_mem b hy)) (List.pairwise_cons.1 hL).2
        (fun b1 hb1 => (List.pairwise_cons.1 (hno b1 (List.mem_cons_of_mem b hb1))).2)))
    · intro y _ hc
      have := hLtag a (List.mem_cons_self a L)
      simp [this] at hc
    · intro y hy hc
      rcases (mem_refMerge (onValue compare) L R y).1 hy with h | h
      · have hpair := (List.pairwise_cons.1 (hno b (List.mem_cons_self b R))).1 y h
        exact hpair ⟨hab, hc.2.2⟩
      · have := hRtag y (List.mem_cons_of_mem b h)
        simp [this] at hc

end Stability

/-- C4, as stated, fails: under `compare x y = x/10 - y/10` the inputs
`[10, 11]` and `[12]` are non-decreasing and all three elements tie; the
output is `10, 12, 11`, so `12` of the second input stands before `11` of
the first input. -/
theorem C4_stable_counterexample :
    ([10, 11] : List Int).Chain' (fun x y => x / 10 - y / 10 ≤ 0)
      ∧ ([12] : List Int).Chain' (fun x y => x / 10 - y / 10 ≤ 0)
      ∧ Collect (MergeFunc (Slice [10, 11]) (Slice [12]) (fun x y : Int => x / 10 - y / 10))
          = [10, 12, 11]
      ∧ ¬ StableOutput (fun x y : Int => x / 10 - y / 10)
          (Collect (MergeFunc (Slice (fromLeft [10, 11])) (Slice (fromRight [12]))
            (onValue (fun x y : Int => x / 10 - y / 10)))) := by
  refine ⟨by simp, by simp, ?_, ?_⟩
  · rw [Collect_MergeFunc, Collect_Slice, Collect_Slice]
    simp [refMerge]
  · rw [Collect_MergeFunc, Collect_Slice, Collect_Slice]
    simp [refMerge, onValue, fromLeft, fromRight, StableOutput]

/-- C4, amended: when `compare` is transitive, `A` and `B` are non-decreasing
under it and no element of `B` ties with two elements of `A`, then in the
output of `MergeFunc` on the origin-tagged inputs no element of `B` stands
before an element of `A` with which it ties; dropping the tags gives the
output of `MergeFunc (Slice A) (Slice B) compare`. -/
theorem C4_mergeFunc_stable_single_ties {T : Type} [Inhabited T] (A B : List T)
    (compare : T → T → Int) (htrans : LeTrans compare)
    (hA : A.Chain' (fun x y => compare x y ≤ 0))
    (_hB : B.Chain' (fun x y => compare x y ≤ 0))
    (hno : ∀ b ∈ B, A.Pairwise (fun x y => ¬ (compare x b = 0 ∧ compare y b = 0))) :
    StableOutput compare
        (Collect (MergeFunc (Slice (fromLeft A)) (Slice (fromRight B)) (onValue compare)))
      ∧ (Collect (MergeFunc (Slice (fromLeft A)) (Slice (fromRight B))
            (onValue compare))).map Prod.fst
          = Collect (MergeFunc (Slice A) (Slice B) compare) := by
  rw [Collect_MergeFunc, Collect_MergeFunc, Collect_Slice, Collect_Slice, Collect_Slice,
    Collect_Slice]
  constructor
  · refine refMerge_stable compare htrans _ _ ?_ ?_ ?_ ?_
    · intro x hx
      simp only [fromLeft, List.mem_map] at hx
      obtain ⟨a, _, rfl⟩ := hx
      rfl
    · intro y hy
      simp only [fromRight, List.mem_map] at hy
      obtain ⟨b, _, rfl⟩ := hy
      rfl
    · rw [chain_iff_pairwise_of_trans compare htrans] at hA
      unfold fromLeft
      rw [List.pairwise_map]
      exact hA
    · intro b hb
      simp only [fromRight, List.mem_map] at hb
      obtain ⟨b0, hb0, rfl⟩ := hb
      unfold fromLeft
      rw [List.pairwise_map]
      exact hno b0 hb0
  · rw [refMerge_untag]
    simp [fromLeft, fromRight, Function.comp_def]

/-- The inputs of `TestMergeFuncC`: `0, 1` and `2, 3` tie within the first
input, `4` of the second input ties with `5` of the first only, and `5`
precedes `4` in the output. -/
theorem C4_mergeFunc_stable_single_ties_witness :
    StableOutput (fun x y : Int => x / 2 - y / 2)
        (Collect (MergeFunc (Slice (fromLeft [0, 1, 2, 3, 5])) (Slice (fromRight [4, 6, 7, 8, 9]))
          (onValue (fun x y : Int => x / 2 - y / 2))))
      ∧ (Collect (MergeFunc (Slice (fromLeft [0, 1, 2, 3, 5])) (Slice (fromRight [4, 6, 7, 8, 9]))
            (onValue (fun x y : Int => x / 2 - y / 2)))).map Prod.fst
          = Collect (MergeFunc (Slice [0, 1, 2, 3, 5]) (Slice [4, 6, 7, 8, 9])
              (fun x y : Int => x / 2 - y / 2)) :=
  C4_mergeFunc_stable_single_ties [0, 1, 2, 3, 5] [4, 6, 7, 8, 9]
    (fun x y : Int => x / 2 - y / 2)
    (by intro x y z; simp only; omega) (by simp) (by simp) (by decide)

/-- Transitivity cannot be dropped from the stability statement: under the
comparison that is `x - y` except that `2` ties with `0`, the inputs `1, 2`
and `0` are non-decreasing and `0` ties with `2` only, yet the output is
`0, 1, 2`, with `0` of the second input before `2` of the first. -/
theorem stable_needs_transitivity :
    ([1, 2] : List Int).Chain'
        (fun x y => (if x = 2 ∧ y = 0 then (0 : Int) else x - y) ≤ 0)
      ∧ (∀ b ∈ ([0] : List Int), ([1, 2] : List Int).Pairwise (fun x y =>
          ¬ ((if x = 2 ∧ b = 0 then (0 : Int) else x - b) = 0
            ∧ (if y = 2 ∧ b = 0 then (0 : Int) else y - b) = 0)))
      ∧ ¬ StableOutput (fun x y : Int => if x = 2 ∧ y = 0 then 0 else x - y)
          (Collect (MergeFunc (Slice (fromLeft [1, 2])) (Slice (fromRight [0]))
            (onValue (fun x y : Int => if x = 2 ∧ y = 0 then 0 else x - y)))) := by
  refine ⟨by simp, by decide, ?_⟩
  rw [Collect_MergeFunc, Collect_Slice, Collect_Slice]
  simp [refMerge, onValue, fromLeft, fromRight, StableOutput]

theorem C2_mergeFunc_sorted_witness :
    (Collect (MergeFunc (Slice [2, 3, 5]) (Slice [1, 2, 3, 4, 5])
      (fun x y : Int => x - y))).Chain' (fun x y => x - y ≤ 0) :=
  C2_mergeFunc_sorted [2, 3, 5] [1, 2, 3, 4, 5] (fun x y : Int => x - y)
    (by intro x y; simp only; omega) (by intro x y z; simp only; omega)
    (by simp) (by simp)

/-- Both heads are `2` and tie; the consumer stops on its first invocation
and receives the left `2` only. -/
theorem C6_mergeFunc_early_stop_witness :
    (MergeFunc (Slice [2, 3, 5]) (Slice [2, 4]) (fun x y : Int => x - y)
        (List Int) (stopAt 1) []).1 = [2]
      ∧ (MergeFunc (Slice [2, 3, 5]) (Slice [2, 4]) (fun x y : Int => x - y)
          (List Int) (stopAt 1) []).1.length = 1 :=
  have h := C6_mergeFunc_early_stop [2, 3, 5] [2, 4] (fun x y : Int => x - y) 1 (by decide)
    (by rw [Collect_MergeFunc, Collect_Slice, Collect_Slice]; simp [refMerge])
  ⟨h.2.2 2 [3, 5] 2 [4] rfl rfl (by decide) rfl, h.2.1⟩

/-! ## `Zip` -/

section ZipFacts

variable {T1 T2 σ : Type} [Inhabited T1] [Inhabited T2]

theorem zipAt_succ_cons_cons (a : T1) (A : List T1) (b : T2) (B : List T2) :
    (zipAt (a :: A) (b :: B)) ∘ Nat.succ = zipAt A B := by
  funext i
  simp [zipAt]

theorem zipAt_succ_cons_nil (a : T1) (A : List T1) :
    (zipAt (a :: A) ([] : List T2)) ∘ Nat.succ = zipAt A [] := by
  funext i
  simp [zipAt]

theorem zipAt_succ_nil_cons (b : T2) (B : List T2) :
    (zipAt ([] : List T1) (b :: B)) ∘ Nat.succ = zipAt [] B := by
  funext i
  simp [zipAt]

/-- The loop of `Zip` on two handles drives the consumer exactly as a slice
over the pairs `zipAt A B 0, ..., zipAt A B (max a b - 1)` does. -/
theorem zipLoop_eq_sliceLoop (yield : σ → Zipped T1 T2 → σ × Bool) :
    ∀ (n : Nat) (A : List T1) (B : List T2) (st : σ), max A.length B.length = n →
      zipLoop yield ⟨A⟩ ⟨B⟩ st = sliceLoop yield ((List.range n).map (zipAt A B)) st := by
  intro n
  induction n with
  | zero =>
    intro A B st hn
    have hA : A = [] := List.length_eq_zero.1 (by omega)
    have hB : B = [] := List.length_eq_zero.1 (by omega)
    subst hA hB
    rw [zipLoop]
    simp [next_nil, sliceLoop]
  | succ n ih =>
    intro A B st hn
    rw [zipLoop, List.range_succ_eq_map, List.map_cons, List.map_map]
    rcases A with _ | ⟨a, A⟩ <;> rcases B with _ | ⟨b, B⟩
    · simp at hn
    · rw [zipAt_succ_nil_cons]
      have h := fun st1 => ih [] B st1 (by simp at hn ⊢; omega)
      simp [next_nil, next_cons, sliceLoop, h, zipAt]
    · rw [zipAt_succ_cons_nil]
      have h := fun st1 => ih A [] st1 (by simp at hn ⊢; omega)
      simp [next_nil, next_cons, sliceLoop, h, zipAt]
    · rw [zipAt_succ_cons_cons]
      have h := fun st1 => ih A B st1 (by simp at hn ⊢; omega)
      simp [next_cons, sliceLoop, h, zipAt]

theorem Collect_Zip (seq1 : Seq T1) (seq2 : Seq T2) :
    Collect (Zip seq1 seq2)
      = (List.range (max (Collect seq1).length (Collect seq2).length)).map
          (zipAt (Collect seq1) (Collect seq2)) := by
  simp only [Collect, Zip, Pull]
  rw [zipLoop_eq_sliceLoop _ _ _ _ _ rfl, sliceLoop_collect]
  simp

end ZipFacts

/-- C7: for all finite `A` of length `a` and `B` of length `b`, the full
traversal of `Zip (Slice A) (Slice B)` yields exactly `max a b` pairs, the
`i`-th being `zipAt A B i` (`OK1 = (i < a)` with `V1 = A[i]` or the zero
value, `OK2 = (i < b)` with `V2 = B[i]` or the zero value); no yielded pair
has both presence flags false. -/
theorem C7_zip_pairs {T1 T2 : Type} [Inhabited T1] [Inhabited T2] (A : List T1)
    (B : List T2) :
    Collect (Zip (Slice A) (Slice B))
        = (List.range (max A.length B.length)).map (zipAt A B)
      ∧ (Collect (Zip (Slice A) (Slice B))).length = max A.length B.length
      ∧ (∀ z ∈ Collect (Zip (Slice A) (Slice B)), ¬ (z.OK1 = false ∧ z.OK2 = false)) := by
  rw [Collect_Zip, Collect_Slice, Collect_Slice]
  refine ⟨rfl, by simp, ?_⟩
  intro z hz
  simp only [List.mem_map, List.mem_range] at hz
  obtain ⟨i, hi, rfl⟩ := hz
  simp only [zipAt, decide_eq_false_iff_not, not_and, not_not, not_lt]
  intro h1
  omega

/-! ## `Windows` -/

section WindowsFacts

variable {T : Type}

theorem windowsStep_continue (n : Int) (s : List (List T) × List T) (v : T) :
    (windowsStep n (fun (acc : List (List T)) w => (acc ++ [w], true)) s v).2 = true := by
  simp only [windowsStep]
  split_ifs <;> rfl

/-- Shifting a non-empty buffer: `copy(win, win[1:])` followed by
`win[len(win)-1] = v` leaves `win[1:]` followed by `v`. -/
theorem goCopy_shift (win : List T) (v : T) (hw : win ≠ []) :
    (goCopy win (win.drop 1)).set (win.length - 1) v = win.drop 1 ++ [v] := by
  rcases win with _ | ⟨a, w⟩
  · exact absurd rfl hw
  · obtain ⟨x, hx⟩ : ∃ x, (a :: w).drop w.length = [x] := by
      apply List.length_eq_one.1
      simp
    simp only [goCopy, List.drop_succ_cons, List.drop_zero, List.length_cons,
      Nat.add_sub_cancel]
    rw [hx, List.take_of_length_le (by omega)]
    simp [List.set_append]

theorem windowsStep_winState (n : Nat) (hn : 1 ≤ n) (p : List T) (v : T) :
    (windowsStep (n : Int) (fun (acc : List (List T)) w => (acc ++ [w], true))
      (winState n p) v).1 = winState n (p ++ [v]) := by
  have hlen : (p.drop (p.length - n)).length = min p.length n := by
    simp only [List.length_drop]; omega
  simp only [windowsStep, winState, List.length_append, List.length_singleton]
  rw [hlen]
  rcases Nat.lt_trichotomy (p.length + 1) n with hlt | heq | hgt
  · have c1 : ((min p.length n : Nat) : Int) < (n : Int) - 1 := by omega
    have e1 : p.length + 1 - n = 0 := by omega
    have e2 : p.length + 1 + 1 - n = 0 := by omega
    have e3 : p.length - n = 0 := by omega
    rw [if_pos c1, e1, e2, e3]
    simp
  · have c1 : ¬ ((min p.length n : Nat) : Int) < (n : Int) - 1 := by omega
    have c2 : ((min p.length n : Nat) : Int) < (n : Int) := by omega
    have e1 : p.length + 1 - n = 0 := by omega
    have e2 : p.length + 1 + 1 - n = 1 := by omega
    have e3 : p.length - n = 0 := by omega
    rw [if_neg c1, if_pos c2, e1, e2, e3]
    have ht : (p ++ [v]).take n = p ++ [v] := List.take_of_length_le (by simp; omega)
    simp [List.range_succ, ht]
  · have c1 : ¬ ((min p.length n : Nat) : Int) < (n : Int) - 1 := by omega
    have c2 : ¬ ((min p.length n : Nat) : Int) < (n : Int) := by omega
    have hne : p.drop (p.length - n) ≠ [] := by
      intro h
      have h0 : (p.drop (p.length - n)).length = 0 := by rw [h]; rfl
      rw [hlen] at h0
      omega
    have e2 : p.length + 1 + 1 - n = (p.length + 1 - n) + 1 := by omega
    have e4 : min p.length n - 1 = (p.drop (p.length - n)).length - 1 := by rw [hlen]
    rw [if_neg c1, if_neg c2]
    simp only
    rw [e4, goCopy_shift _ v hne, e2, List.range_succ, List.map_append, List.map_singleton]
    have hd : (p ++ [v]).drop (p.length + 1 - n) = List.drop 1 (p.drop (p.length - n)) ++ [v] := by
      rw [List.drop_append_of_le_length (by omega), List.drop_drop]
      congr 2
      omega
    have hlast : ((p ++ [v]).drop (p.length + 1 - n)).take n
        = (p ++ [v]).drop (p.length + 1 - n) := by
      apply List.take_of_length_le
      simp; omega
    rw [hlast, hd]
    congr 2
    apply List.map_congr_left
    intro i hi
    rw [List.mem_range] at hi
    rw [List.drop_append_of_le_length (by omega), List.take_append_of_le_length]
    simp; omega

theorem sliceLoop_windowsStep (n : Nat) (hn : 1 ≤ n) (xs p : List T) :
    sliceLoop (windowsStep (n : Int) (fun (acc : List (List T)) w => (acc ++ [w], true)))
      xs (winState n p) = (winState n (p ++ xs), false) := by
  induction xs generalizing p with
  | nil => simp [sliceLoop]
  | cons x xs ih =>
    have h := ih (p ++ [x])
    rw [← windowsStep_winState n hn p x] at h
    simp only [sliceLoop, windowsStep_continue, Bool.not_true, Bool.false_eq_true, if_false]
    rw [h]
    simp

/-- The full traversal of `Windows` over a slice: the whole input as one
short window when it has fewer than `n` elements, all the windows of length
`n` otherwise. -/
theorem Collect_Windows (n : Nat) (hn : 1 ≤ n) (xs : List T) :
    Collect (Windows (Slice xs) (n : Int))
      = if xs.length < n then [xs]
        else (List.range (xs.length + 1 - n)).map (fun i => (xs.drop i).take n) := by
  have h0 : (([], []) : List (List T) × List T) = winState n [] := by
    have e : 1 - n = 0 := by omega
    simp [winState, e]
  have h := sliceLoop_windowsStep n hn xs []
  rw [← h0, List.nil_append] at h
  simp only [Collect, Windows, Slice]
  rw [h]
  have hlen : (xs.drop (xs.length - n)).length = min xs.length n := by
    simp only [List.length_drop]; omega
  simp only [winState]
  rw [hlen]
  by_cases hlt : xs.length < n
  · have c : ((min xs.length n : Nat) : Int) < (n : Int) := by omega
    have e1 : xs.length + 1 - n = 0 := by omega
    have e2 : xs.length - n = 0 := by omega
    rw [if_pos c, if_pos hlt, e1, e2]
    simp
  · have c : ¬ ((min xs.length n : Nat) : Int) < (n : Int) := by omega
    rw [if_neg c, if_neg hlt]

end WindowsFacts

/-- C8: for every `n ≥ 1` and every finite input `xs` of length `L ≥ n`, the
full traversal of `Windows (Slice xs) n` yields exactly `L - n + 1` windows;
the `i`-th (0-based), as handed to the consumer, is `xs[i .. i+n-1]`, and
every window has length `n`. -/
theorem C8_windows_full {T : Type} (xs : List T) (n : Nat) (hn : 1 ≤ n)
    (hL : n ≤ xs.length) :
    Collect (Windows (Slice xs) (n : Int))
        = (List.range (xs.length - n + 1)).map (fun i => (xs.drop i).take n)
      ∧ (Collect (Windows (Slice xs) (n : Int))).length = xs.length - n + 1
      ∧ (∀ w ∈ Collect (Windows (Slice xs) (n : Int)), w.length = n) := by
  have e : xs.length + 1 - n = xs.length - n + 1 := by omega
  rw [Collect_Windows n hn xs, if_neg (by omega), e]
  refine ⟨rfl, by simp, ?_⟩
  intro w hw
  simp only [List.mem_map, List.mem_range] at hw
  obtain ⟨i, hi, rfl⟩ := hw
  simp only [List.length_take, List.length_drop]
  omega

/-- The example of `TestFind`, on the first forty naturals: with `n = 3` the
first window whose sum is at least 100 is `[33, 34, 35]`. -/
theorem C8_windows_full_witness :
    (Collect (Windows (Slice (List.range 40)) ((3 : Nat) : Int))).find?
      (fun w => decide (100 ≤ w.sum)) = some [33, 34, 35] := by
  rw [(C8_windows_full (List.range 40) 3 (by decide) (by decide)).1]
  decide

/-- C9: for every `n ≥ 1`, a finite input `xs` of length `L < n` gives
exactly one window, the whole input; an input whose length is a multiple
`m * n` of `n` with `m ≥ 1` gives windows of length `n` only, the last
being the last `n` elements of the input, with no shorter window after it. -/
theorem C9_windows_boundary {T : Type} (xs : List T) (n : Nat) (hn : 1 ≤ n) :
    (xs.length < n → Collect (Windows (Slice xs) (n : Int)) = [xs])
      ∧ (∀ m, 1 ≤ m → xs.length = m * n →
          (Collect (Windows (Slice xs) (n : Int))).getLast? = some (xs.drop (xs.length - n))
            ∧ (xs.drop (xs.length - n)).length = n
            ∧ (∀ w ∈ Collect (Windows (Slice xs) (n : Int)), w.length = n)) := by
  rw [Collect_Windows n hn xs]
  constructor
  · intro hlt
    rw [if_pos hlt]
  · intro m hm hlen
    have hle : n ≤ xs.length := by
      rw [hlen]
      exact Nat.le_mul_of_pos_left n hm
    have e : xs.length + 1 - n = xs.length - n + 1 := by omega
    rw [if_neg (by omega), e, List.range_succ, List.map_append, List.map_singleton]
    refine ⟨?_, by simp only [List.length_drop]; omega, ?_⟩
    · rw [List.getLast?_append, List.take_of_length_le (by simp only [List.length_drop]; omega)]
      rfl
    · intro w hw
      simp only [List.mem_append, List.mem_map, List.mem_range, List.mem_singleton] at hw
      rcases hw with ⟨i, hi, rfl⟩ | rfl <;> simp only [List.length_take, List.length_drop] <;>
        omega

theorem C9_windows_boundary_witness :
    Collect (Windows (Slice [7, 8]) ((3 : Nat) : Int)) = [[7, 8]]
      ∧ (Collect (Windows (Slice [1, 2, 3, 4, 5, 6]) ((3 : Nat) : Int))).getLast?
          = some [4, 5, 6] :=
  ⟨(C9_windows_boundary [7, 8] 3 (by decide)).1 (by decide),
    ((C9_windows_boundary [1, 2, 3, 4, 5, 6] 3 (by decide)).2 2 (by decide) (by decide)).1⟩

/-! ## `Chunks` -/

section ChunksFacts

variable {T : Type}

theorem chunksStep_continue (n : Int) (s : List (List T) × List T) (v : T) :
    (chunksStep n (fun (acc : List (List T)) w => (acc ++ [w], true)) s v).2 = true := by
  simp only [chunksStep]
  split_ifs <;> rfl

/-- One step of the callback of `Chunks` under a full traversal keeps the
invariant: the recorded chunks, followed by the buffer unless the buffer is
a full chunk that has been recorded already, make up the input so far. -/
theorem chunksStep_inv (n : Nat) (hn : 1 ≤ n) (p : List T) (v : T)
    (s : List (List T) × List T)
    (hs : (s.2.length < n ∧ s.1.flatten ++ s.2 = p) ∨ (s.2.length = n ∧ s.1.flatten = p)) :
    (((chunksStep (n : Int) (fun (acc : List (List T)) w => (acc ++ [w], true)) s v).1).2.length
          < n
        ∧ ((chunksStep (n : Int) (fun (acc : List (List T)) w => (acc ++ [w], true)) s v).1).1.flatten
            ++ ((chunksStep (n : Int) (fun (acc : List (List T)) w => (acc ++ [w], true)) s v).1).2
          = p ++ [v])
      ∨ (((chunksStep (n : Int) (fun (acc : List (List T)) w => (acc ++ [w], true)) s v).1).2.length
          = n
        ∧ ((chunksStep (n : Int) (fun (acc : List (List T)) w => (acc ++ [w], true)) s v).1).1.flatten
          = p ++ [v]) := by
  obtain ⟨acc, win⟩ := s
  simp only [chunksStep]
  rcases hs with ⟨hlt, hp⟩ | ⟨heq, hp⟩
  · simp only at hlt hp
    have c0 : ¬ ((win.length : Int) = (n : Int)) := by omega
    rw [if_neg c0]
    by_cases h1 : win.length + 1 < n
    · have c1 : (win.length : Int) < (n : Int) - 1 := by omega
      rw [if_pos c1]
      left
      refine ⟨by simp; omega, ?_⟩
      simp only
      rw [← List.append_assoc, hp]
    · have c1 : ¬ (win.length : Int) < (n : Int) - 1 := by omega
      have c2 : (win.length : Int) < (n : Int) := by omega
      rw [if_neg c1, if_pos c2]
      right
      refine ⟨by simp; omega, ?_⟩
      simp only [List.flatten_append, List.flatten_cons, List.flatten_nil, List.append_nil]
      rw [← List.append_assoc, hp]
  · simp only at heq hp
    have c0 : (win.length : Int) = (n : Int) := by omega
    rw [if_pos c0]
    by_cases h1 : 1 < n
    · have c1 : (([] : List T).length : Int) < (n : Int) - 1 := by simp; omega
      rw [if_pos c1]
      left
      refine ⟨by simp; omega, ?_⟩
      simp only [List.nil_append]
      rw [hp]
    · have c1 : ¬ (([] : List T).length : Int) < (n : Int) - 1 := by simp; omega
      have c2 : (([] : List T).length : Int) < (n : Int) := by simp; omega
      rw [if_neg c1, if_pos c2]
      right
      refine ⟨by simp; omega, ?_⟩
      simp only [List.flatten_append, List.flatten_cons, List.flatten_nil, List.append_nil,
        List.nil_append]
      rw [hp]

theorem sliceLoop_chunksStep_inv (n : Nat) (hn : 1 ≤ n) (xs p : List T)
    (s : List (List T) × List T)
    (hs : (s.2.length < n ∧ s.1.flatten ++ s.2 = p) ∨ (s.2.length = n ∧ s.1.flatten = p)) :
    ∃ s1, sliceLoop (chunksStep (n : Int) (fun (acc : List (List T)) w => (acc ++ [w], true)))
        xs s = (s1, false)
      ∧ ((s1.2.length < n ∧ s1.1.flatten ++ s1.2 = p ++ xs)
          ∨ (s1.2.length = n ∧ s1.1.flatten = p ++ xs)) := by
  induction xs generalizing p s with
  | nil => exact ⟨s, rfl, by simpa using hs⟩
  | cons x xs ih =>
    obtain ⟨s1, h1, h2⟩ := ih (p ++ [x]) _ (chunksStep_inv n hn p x s hs)
    refine ⟨s1, ?_, by simpa using h2⟩
    simp only [sliceLoop, chunksStep_continue, Bool.not_true, Bool.false_eq_true, if_false]
    exact h1

end ChunksFacts

/-- C10: for every `n ≥ 1` and every finite input `xs`, the empty one
included, the chunks yielded by the full traversal of `Chunks (Slice xs) n`,
each recorded as it is yielded, concatenate in order to `xs`. -/
theorem C10_chunks_concat {T : Type} (xs : List T) (n : Nat) (hn : 1 ≤ n) :
    (Collect (Chunks (Slice xs) (n : Int))).flatten = xs := by
  obtain ⟨s1, h1, h2⟩ := sliceLoop_chunksStep_inv n hn xs [] ([], [])
    (Or.inl ⟨by simp; omega, by simp⟩)
  simp only [Collect, Chunks, Slice]
  rw [h1]
  simp only [List.nil_append] at h2
  rcases h2 with ⟨hlt, hp⟩ | ⟨heq, hp⟩
  · have c : (s1.2.length : Int) < (n : Int) := by omega
    rw [if_pos c]
    simpa using hp
  · have c : ¬ (s1.2.length : Int) < (n : Int) := by omega
    rw [if_neg c]
    exact hp

/-- The input of `TestChunks`: `1, 2, 3, 4, 5` in chunks of two. -/
theorem C10_chunks_concat_witness :
    (Collect (Chunks (Slice [1, 2, 3, 4, 5]) ((2 : Nat) : Int))).flatten = [1, 2, 3, 4, 5] :=
  C10_chunks_concat [1, 2, 3, 4, 5] 2 (by decide)

/-! ## `Concat` -/

theorem foldl_Slice_collect {T : Type} (ls : List (List T)) (acc : List T) :
    (ls.map Slice).foldl
        (fun s seq => (seq (List T) (fun (a : List T) (v : T) => (a ++ [v], true)) s).1) acc
      = acc ++ ls.flatten := by
  induction ls generalizing acc with
  | nil => simp
  | cons l ls ih =>
    simp only [List.map_cons, List.foldl_cons, Slice, sliceLoop_collect, ih, List.flatten_cons,
      List.append_assoc]

/-- C15: for all finite sequences `seq1, ..., seqk`, given as slices, the full
traversal of `Concat` yields the elements of `seq1`, then of `seq2`, and so
on, each in its own order: the concatenation of the inputs. -/
theorem C15_concat_full {T : Type} (ls : List (List T)) :
    Collect (Concat (ls.map Slice)) = ls.flatten := by
  simp only [Collect, Concat]
  rw [foldl_Slice_collect]
  simp

/-- C12, at a failing input: the consumer answers stop on its first
invocation (the value `1` of the first sequence); `Concat` goes on to drive
the second sequence, and the consumer is invoked again, with `3`. -/
theorem C12_concat_after_stop :
    (Concat [Slice [1, 2], Slice [3]] (List Int) (stopAt 1) []).1 = [1, 3]
      ∧ (Concat [Slice [1, 2], Slice [3]] (List Int × Bool × Bool) (monitor (stopAt 1))
          ([], false, false)).1.2.2 = true := by
  constructor <;> rfl

/-! ## `Limit` -/

section LimitFacts

variable {T : Type}

theorem limitStep_collect (acc : List T) (k : Int) (x : T) :
    limitStep (fun (a : List T) (v : T) => (a ++ [v], true)) (acc, k) x
      = ((acc ++ [x], k - 1), decide (k - 1 > 0)) := by
  simp [limitStep]

/-- A slice driving the callback of `Limit` under a full traversal, with the
counter at `k ≥ 1`: the first `k` elements pass, and the counter drops by
their number. -/
theorem sliceLoop_limitStep (xs : List T) :
    ∀ (acc : List T) (k : Nat), 1 ≤ k →
      sliceLoop (limitStep (fun (a : List T) (v : T) => (a ++ [v], true))) xs (acc, (k : Int))
        = ((acc ++ xs.take k, ((k - min k xs.length : Nat) : Int)), false) := by
  induction xs with
  | nil => intro acc k _; simp [sliceLoop]
  | cons x xs ih =>
    intro acc k hk
    rw [sliceLoop, limitStep_collect]
    by_cases h1 : k = 1
    · subst h1
      simp
    · have hpos : ((k : Int) - 1 > 0) := by omega
      have hcast : ((k : Int) - 1) = ((k - 1 : Nat) : Int) := by omega
      simp only [hpos, decide_True, Bool.not_true, Bool.false_eq_true, if_false]
      rw [hcast, ih (acc ++ [x]) (k - 1) (by omega)]
      obtain ⟨j, rfl⟩ : ∃ j, k = j + 1 := ⟨k - 1, by omega⟩
      simp only [List.take_succ_cons, List.append_assoc, List.singleton_append,
        List.length_cons, Nat.add_sub_cancel]
      congr 3
      omega

/-- The same traversal with the invocations of the callback counted. -/
theorem sliceLoop_counted_limitStep (xs : List T) :
    ∀ (acc : List T) (k c : Nat), 1 ≤ k →
      (sliceLoop (counted (limitStep (fun (a : List T) (v : T) => (a ++ [v], true)))) xs
        ((acc, (k : Int)), c)).1.2 = c + min k xs.length := by
  induction xs with
  | nil => intro acc k c _; simp [sliceLoop]
  | cons x xs ih =>
    intro acc k c hk
    rw [sliceLoop]
    simp only [counted, limitStep_collect]
    by_cases h1 : k = 1
    · subst h1
      simp
    · have hpos : ((k : Int) - 1 > 0) := by omega
      have hcast : ((k : Int) - 1) = ((k - 1 : Nat) : Int) := by omega
      simp only [hpos, decide_True, Bool.not_true, Bool.false_eq_true, if_false]
      rw [hcast, ih (acc ++ [x]) (k - 1) (c + 1) (by omega)]
      simp only [List.length_cons]
      omega

/-- An unbounded source driving the callback of `Limit` with the counter at
`k ≥ 1` returns as soon as the fuel allows `k` elements, after exactly the
`k` elements `g i, ..., g (i + k - 1)`. -/
theorem streamLoop_limitStep (g : Nat → T) :
    ∀ (fuel i : Nat) (acc : List T) (k : Nat), 1 ≤ k → k ≤ fuel →
      streamLoop g (limitStep (fun (a : List T) (v : T) => (a ++ [v], true))) fuel i
          (acc, (k : Int))
        = some ((acc ++ (List.range' i k).map g, 0), false) := by
  intro fuel
  induction fuel with
  | zero => intro i acc k h1 h2; omega
  | succ fuel ih =>
    intro i acc k h1 h2
    rw [streamLoop, limitStep_collect]
    by_cases hk : k = 1
    · subst hk
      simp
    · have hpos : ((k : Int) - 1 > 0) := by omega
      have hcast : ((k : Int) - 1) = ((k - 1 : Nat) : Int) := by omega
      simp only [hpos, decide_True, Bool.not_true, Bool.false_eq_true, if_false]
      rw [hcast, ih (i + 1) (acc ++ [g i]) (k - 1) (by omega) (by omega)]
      obtain ⟨j, rfl⟩ : ∃ j, k = j + 1 := ⟨k - 1, by omega⟩
      simp [List.range'_succ]

/-- With the counter at `c ≤ 0` the callback of `Limit` still hands its first
value to the consumer, and only then answers stop. -/
theorem sliceLoop_limitStep_nonpos (xs : List T) (acc : List T) (c : Int) (hc : c ≤ 0) :
    sliceLoop (limitStep (fun (a : List T) (v : T) => (a ++ [v], true))) xs (acc, c)
      = ((acc ++ xs.take 1, c - ((min 1 xs.length : Nat) : Int)), false) := by
  rcases xs with _ | ⟨x, xs⟩
  · simp [sliceLoop]
  · rw [sliceLoop, limitStep_collect]
    have hneg : ¬ (c - 1 > 0) := by omega
    simp [hneg]

theorem sliceLoop_counted_limitStep_nonpos (xs : List T) (acc : List T) (c : Int)
    (hc : c ≤ 0) (k : Nat) :
    (sliceLoop (counted (limitStep (fun (a : List T) (v : T) => (a ++ [v], true)))) xs
      ((acc, c), k)).1.2 = k + min 1 xs.length := by
  rcases xs with _ | ⟨x, xs⟩
  · simp [sliceLoop]
  · rw [sliceLoop]
    simp only [counted, limitStep_collect]
    have hneg : ¬ (c - 1 > 0) := by omega
    simp [hneg]

theorem streamLoop_limitStep_nonpos (g : Nat → T) (fuel i : Nat) (acc : List T) (c : Int)
    (hc : c ≤ 0) (hf : 1 ≤ fuel) :
    streamLoop g (limitStep (fun (a : List T) (v : T) => (a ++ [v], true))) fuel i (acc, c)
      = some ((acc ++ [g i], c - 1), false) := by
  obtain ⟨f, rfl⟩ : ∃ f, fuel = f + 1 := ⟨fuel - 1, by omega⟩
  rw [streamLoop, limitStep_collect]
  have hneg : ¬ (c - 1 > 0) := by omega
  simp [hneg]

/-- Whatever the consumer, a traversal never raises the captured counter. -/
theorem sliceLoop_limitStep_counter_le {σ : Type} (yield : σ → T → σ × Bool) (xs : List T) :
    ∀ (s : σ) (c : Int), (sliceLoop (limitStep yield) xs (s, c)).1.2 ≤ c := by
  induction xs with
  | nil => intro s c; simp [sliceLoop]
  | cons x xs ih =>
    intro s c
    rw [sliceLoop]
    simp only [limitStep]
    by_cases hy : (yield s x).2 = true
    · simp only [hy, Bool.not_true, Bool.false_eq_true, if_false]
      by_cases hpos : c - 1 > 0
      · simp only [hpos, decide_True, Bool.not_true, Bool.false_eq_true, if_false]
        have := ih (yield s x).1 (c - 1)
        omega
      · simp only [hpos, decide_False, Bool.not_false, if_true]
        omega
    · have hy2 : (yield s x).2 = false := by simpa using hy
      simp [hy2]

theorem take_min_length (xs : List T) (k : Nat) : xs.take (min k xs.length) = xs.take k := by
  rcases Nat.le_total k xs.length with h | h
  · rw [Nat.min_eq_left h]
  · rw [Nat.min_eq_right h, List.take_of_length_le h, List.take_of_length_le (le_refl _)]

end LimitFacts

/-- C13, at a failing input: with `n = 0` and the one-element source `7`,
the consumer of a freshly built `Limit` is invoked once, with `7`, on the
first traversal, although at most zero values are to be yielded. -/
theorem C13_limit_zero_yields_one :
    (limitCollect (Slice [7]) 0).1 = ([7] : List Int)
      ∧ (Limit (Slice [7]) 0 (List Int × Nat)
          (counted (fun (a : List Int) v => (a ++ [v], true))) ([], 0)).1.1.2 = 1 := by
  constructor <;> rfl

/-- C17, as stated, fails on a second traversal: the first full traversal of
`Limit(Slice{1, 2, 3}, 2)` yields `1, 2` and leaves the captured counter at
`0`; the second full traversal of the same sequence, begun with that
counter, yields `1` only, not the first `min(2, 3)` elements. -/
theorem C17_limit_second_traversal_counterexample :
    limitCollect (Slice ([1, 2, 3] : List Int)) 2 = ([1, 2], 0)
      ∧ (limitCollect (Slice ([1, 2, 3] : List Int))
          (limitCollect (Slice ([1, 2, 3] : List Int)) 2).2).1 = [1]
      ∧ (limitCollect (Slice ([1, 2, 3] : List Int))
          (limitCollect (Slice ([1, 2, 3] : List Int)) 2).2).1
        ≠ ([1, 2, 3] : List Int).take (min 2 3) := by
  refine ⟨rfl, rfl, ?_⟩
  decide

/-- C17, amended: for every `n ≥ 1`, the first full traversal of a freshly
built `Limit(seq, n)`, the one begun with the captured counter at `n`, yields
exactly the first `min n L` elements of the source in order; the finite
source invokes the callback `min n L` times, and an unbounded source
producing `g 0, g 1, ...` is told to stop by the callback that delivers the
`n`-th element (with fuel for `n` elements or more the traversal returns,
having yielded exactly `g 0, ..., g (n - 1)`).  No traversal, whatever its
consumer, raises the captured counter, so every traversal, first or later,
begins with a counter `c ≤ n`; on every such full traversal the values
yielded are a prefix of the source, the callback is invoked at most `n`
times, and an unbounded source returns after at most `n` elements. -/
theorem C17_limit_exact {T : Type} (xs : List T) (n : Nat) (hn : 1 ≤ n) :
    (limitCollect (Slice xs) (n : Int)).1 = xs.take (min n xs.length)
      ∧ (sliceLoop (counted (limitStep (fun (a : List T) (v : T) => (a ++ [v], true)))) xs
          (([], (n : Int)), 0)).1.2 = min n xs.length
      ∧ (∀ (g : Nat → T) (fuel : Nat), n ≤ fuel →
          streamLoop g (limitStep (fun (a : List T) (v : T) => (a ++ [v], true))) fuel 0
              ([], (n : Int))
            = some (((List.range n).map g, 0), false))
      ∧ (∀ c : Int, c ≤ (n : Int) →
          (sliceLoop (counted (limitStep (fun (a : List T) (v : T) => (a ++ [v], true)))) xs
              (([], c), 0)).1.2 ≤ n
            ∧ (limitCollect (Slice xs) c).1
                = xs.take (sliceLoop
                    (counted (limitStep (fun (a : List T) (v : T) => (a ++ [v], true)))) xs
                    (([], c), 0)).1.2
            ∧ (∀ (σ : Type) (yield : σ → T → σ × Bool) (st : σ),
                (Limit (Slice xs) c σ yield st).2 ≤ c)
            ∧ (∀ (g : Nat → T) (fuel : Nat), n ≤ fuel →
                ∃ k, 1 ≤ k ∧ k ≤ n
                  ∧ streamLoop g
                      (limitStep (fun (a : List T) (v : T) => (a ++ [v], true))) fuel 0 ([], c)
                    = some (((List.range k).map g, c - (k : Int)), false))) := by
  refine ⟨?_, ?_, ?_, ?_⟩
  · simp only [limitCollect, Limit, Slice]
    rw [sliceLoop_limitStep xs [] n hn]
    simp only [List.nil_append]
    exact (take_min_length xs n).symm
  · rw [sliceLoop_counted_limitStep xs [] n 0 hn]
    simp
  · intro g fuel hf
    rw [streamLoop_limitStep g fuel 0 [] n hn hf, List.range_eq_range']
    simp
  · intro c hc
    by_cases hpos : 1 ≤ c
    · obtain ⟨k, rfl⟩ : ∃ k : Nat, c = (k : Int) := ⟨c.toNat, by omega⟩
      have hk1 : 1 ≤ k := by omega
      have hkn : k ≤ n := by omega
      simp only [limitCollect, Limit, Slice]
      rw [sliceLoop_counted_limitStep xs [] k 0 hk1, sliceLoop_limitStep xs [] k hk1]
      simp only [List.nil_append, Nat.zero_add]
      refine ⟨by omega, (take_min_length xs k).symm,
        fun σ yield st => sliceLoop_limitStep_counter_le yield xs st _, ?_⟩
      intro g fuel hf
      refine ⟨k, hk1, hkn, ?_⟩
      rw [streamLoop_limitStep g fuel 0 [] k hk1 (by omega), List.range_eq_range']
      simp
    · have hc0 : c ≤ 0 := by omega
      simp only [limitCollect, Limit, Slice]
      rw [sliceLoop_counted_limitStep_nonpos xs [] c hc0 0, sliceLoop_limitStep_nonpos xs [] c hc0]
      simp only [List.nil_append, Nat.zero_add]
      refine ⟨by omega, (take_min_length xs 1).symm,
        fun σ yield st => sliceLoop_limitStep_counter_le yield xs st _, ?_⟩
      intro g fuel hf
      refine ⟨1, le_refl 1, hn, ?_⟩
      rw [streamLoop_limitStep_nonpos g fuel 0 [] c hc0 (by omega)]
      simp [List.range_succ]

/-- The input of `TestLimit`, cut to a finite source: the first traversal
yields the first three of `0, 2, 4, 6, 8`, and the unbounded source
`0, 2, 4, ...` returns with fuel for three elements; a later traversal of
`Limit(Slice{0, 2, 4, 6, 8}, 3)`, begun with the counter at `0`, invokes the
callback at most three times. -/
theorem C17_limit_exact_witness :
    (limitCollect (Slice ([0, 2, 4, 6, 8] : List Int)) ((3 : Nat) : Int)).1 = [0, 2, 4]
      ∧ streamLoop (fun i => 2 * (i : Int))
          (limitStep (fun (a : List Int) (v : Int) => (a ++ [v], true))) 3 0
            ([], ((3 : Nat) : Int))
          = some (([0, 2, 4], 0), false)
      ∧ (sliceLoop (counted (limitStep (fun (a : List Int) (v : Int) => (a ++ [v], true))))
          ([0, 2, 4, 6, 8] : List Int) (([], 0), 0)).1.2 ≤ 3 :=
  have h := C17_limit_exact ([0, 2, 4, 6, 8] : List Int) 3 (by decide)
  ⟨h.1, h.2.2.1 (fun i => 2 * (i : Int)) 3 (le_refl 3), (h.2.2.2 0 (by decide)).1⟩

/-! ## The chunks of `Chunks` -/

section ChunksExact

variable {T : Type}

theorem chunksOf_nil (n : Nat) : chunksOf n ([] : List T) = [] := by
  rw [chunksOf]

theorem chunksOf_of_ne_nil (n : Nat) (hn : 1 ≤ n) (xs : List T) (hx : xs ≠ []) :
    chunksOf n xs = xs.take n :: chunksOf n (xs.drop n) := by
  rcases xs with _ | ⟨x, xs⟩
  · exact absurd rfl hx
  · rw [chunksOf]
    have h : ¬ n = 0 := by omega
    rw [dif_neg h]

theorem Collect_Chunks_eq_flushed (xs : List T) (n : Int) :
    Collect (Chunks (Slice xs) n)
      = flushed n (sliceLoop (chunksStep n (fun (acc : List (List T)) w => (acc ++ [w], true)))
          xs ([], [])).1 := by
  simp only [Collect, Chunks, Slice, flushed]
  split_ifs <;> rfl

/-- The callback of `Chunks` under a full traversal, from a state whose
buffer is either a chunk in progress or a full chunk already recorded: what
has been recorded at the end is what was recorded before, followed by the
pieces of the elements not recorded yet. -/
theorem flushed_sliceLoop_chunksStep (n : Nat) (hn : 1 ≤ n) (xs : List T) :
    ∀ (acc : List (List T)) (win : List T), win.length ≤ n → (win ≠ [] ∨ xs ≠ []) →
      flushed (n : Int)
          (sliceLoop (chunksStep (n : Int) (fun (acc : List (List T)) w => (acc ++ [w], true)))
            xs (acc, win)).1
        = acc ++ (if win.length = n then chunksOf n xs else chunksOf n (win ++ xs)) := by
  induction xs with
  | nil =>
    intro acc win hle hne
    have hw : win ≠ [] := by
      rcases hne with h | h
      · exact h
      · exact absurd rfl h
    simp only [sliceLoop, flushed, List.append_nil]
    by_cases heq : win.length = n
    · have c : ¬ ((win.length : Int) < (n : Int)) := by omega
      rw [if_neg c, if_pos heq, chunksOf_nil, List.append_nil]
    · have c : (win.length : Int) < (n : Int) := by omega
      rw [if_pos c, if_neg heq, chunksOf_of_ne_nil n hn win hw,
        List.take_of_length_le hle, List.drop_eq_nil_of_le hle, chunksOf_nil]
  | cons x xs ih =>
    intro acc win hle _
    rw [sliceLoop]
    simp only [chunksStep]
    by_cases heq : win.length = n
    · have c0 : (win.length : Int) = (n : Int) := by omega
      rw [if_pos c0, if_pos heq]
      by_cases h1 : 1 < n
      · have c1 : (([] : List T).length : Int) < (n : Int) - 1 := by simp; omega
        rw [if_pos c1]
        simp only [Bool.not_true, Bool.false_eq_true, if_false, List.nil_append]
        rw [ih acc [x] (by simp; omega) (Or.inl (by simp))]
        have hl : ¬ ([x].length = n) := by simp; omega
        rw [if_neg hl]
        rfl
      · have hn1 : n = 1 := by omega
        subst hn1
        have c1 : ¬ (([] : List T).length : Int) < ((1 : Nat) : Int) - 1 := by simp
        have c2 : (([] : List T).length : Int) < ((1 : Nat) : Int) := by simp
        rw [if_neg c1, if_pos c2]
        simp only [Bool.not_true, Bool.false_eq_true, if_false, List.nil_append]
        rw [ih (acc ++ [[x]]) [x] (by simp) (Or.inl (by simp))]
        have hl : [x].length = 1 := rfl
        rw [if_pos hl, chunksOf_of_ne_nil 1 (le_refl 1) (x :: xs) (by simp)]
        simp
    · have c0 : ¬ ((win.length : Int) = (n : Int)) := by omega
      rw [if_neg c0, if_neg heq]
      by_cases h1 : win.length + 1 < n
      · have c1 : (win.length : Int) < (n : Int) - 1 := by omega
        rw [if_pos c1]
        simp only [Bool.not_true, Bool.false_eq_true, if_false]
        rw [ih acc (win ++ [x]) (by simp; omega) (Or.inl (by simp))]
        have hl : ¬ ((win ++ [x]).length = n) := by simp; omega
        rw [if_neg hl, List.append_assoc]
        rfl
      · have c1 : ¬ (win.length : Int) < (n : Int) - 1 := by omega
        have c2 : (win.length : Int) < (n : Int) := by omega
        rw [if_neg c1, if_pos c2]
        simp only [Bool.not_true, Bool.false_eq_true, if_false]
        rw [ih (acc ++ [win ++ [x]]) (win ++ [x]) (by simp; omega) (Or.inl (by simp))]
        have hl : (win ++ [x]).length = n := by simp; omega
        have hsplit : win ++ x :: xs = (win ++ [x]) ++ xs := by simp
        rw [if_pos hl, chunksOf_of_ne_nil n hn (win ++ x :: xs) (by simp), hsplit,
          List.take_left' hl, List.drop_left' hl]
        simp

theorem Collect_Chunks_of_ne_nil (n : Nat) (hn : 1 ≤ n) (xs : List T) (hx : xs ≠ []) :
    Collect (Chunks (Slice xs) (n : Int)) = chunksOf n xs := by
  rw [Collect_Chunks_eq_flushed, flushed_sliceLoop_chunksStep n hn xs [] [] (by simp)
    (Or.inr hx)]
  have hl : ¬ (([] : List T).length = n) := by simp; omega
  rw [if_neg hl]
  simp

/-- The shape of the pieces of a non-empty list: all have between 1 and `n`
elements, all but the last have `n`, and the last is shorter than `n`
exactly when the length is not a multiple of `n`. -/
theorem chunksOf_shape (n : Nat) (hn : 1 ≤ n) :
    ∀ (m : Nat) (xs : List T), xs.length = m → xs ≠ [] →
      (∀ c ∈ chunksOf n xs, 1 ≤ c.length ∧ c.length ≤ n)
        ∧ (∀ c ∈ (chunksOf n xs).dropLast, c.length = n)
        ∧ (∃ c, (chunksOf n xs).getLast? = some c ∧ (c.length < n ↔ xs.length % n ≠ 0)) := by
  intro m
  induction m using Nat.strong_induction_on with
  | _ m ih =>
    intro xs hm hx
    have hpos : 0 < xs.length := List.length_pos.2 hx
    rw [chunksOf_of_ne_nil n hn xs hx]
    by_cases hle : xs.length ≤ n
    · rw [List.drop_eq_nil_of_le hle, chunksOf_nil, List.take_of_length_le hle]
      refine ⟨?_, ?_, ⟨xs, rfl, ?_⟩⟩
      · intro c hc
        rw [List.mem_singleton] at hc
        subst hc
        exact ⟨hpos, hle⟩
      · intro c hc
        simp at hc
      · rcases Nat.lt_or_eq_of_le hle with h | h
        · rw [Nat.mod_eq_of_lt h]
          constructor
          · intro _; omega
          · intro _; exact h
        · rw [h, Nat.mod_self]
          constructor
          · intro h2; omega
          · intro h2; exact absurd rfl h2
    · have hdl : (xs.drop n).length = xs.length - n := List.length_drop n xs
      have hdne : xs.drop n ≠ [] := by
        intro h
        rw [h] at hdl
        simp at hdl
        omega
      obtain ⟨h1, h2, c, hc, hiff⟩ := ih (xs.drop n).length (by omega) (xs.drop n) rfl hdne
      have hrest : chunksOf n (xs.drop n) ≠ [] := by
        rw [chunksOf_of_ne_nil n hn _ hdne]
        simp
      have htl : (xs.take n).length = n := by
        rw [List.length_take]
        omega
      refine ⟨?_, ?_, ⟨c, ?_, ?_⟩⟩
      · intro d hd
        rcases List.mem_cons.1 hd with h | h
        · subst h; omega
        · exact h1 d h
      · intro d hd
        obtain ⟨e, es, hes⟩ := List.exists_cons_of_ne_nil hrest
        rw [hes, List.dropLast_cons₂, ← hes] at hd
        rcases List.mem_cons.1 hd with h | h
        · subst h; exact htl
        · exact h2 d h
      · obtain ⟨e, es, hes⟩ := List.exists_cons_of_ne_nil hrest
        rw [hes, List.getLast?_cons_cons, ← hes]
        exact hc
      · rw [hiff, hdl]
        have hmod : xs.length % n = (xs.length - n) % n :=
          Nat.mod_eq_sub_mod (by omega)
        rw [hmod]

/-- The number of pieces is the length divided by `n`, rounded up. -/
theorem ceil_div_bounds (L n : Nat) (hn : 1 ≤ n) (hL : 1 ≤ L) :
    L ≤ ((L + n - 1) / n) * n ∧ ((L + n - 1) / n - 1) * n < L := by
  have h1 := Nat.div_add_mod (L + n - 1) n
  have h2 := Nat.mod_lt (L + n - 1) (show n > 0 by omega)
  have h3 : ((L + n - 1) / n) * n = n * ((L + n - 1) / n) := Nat.mul_comm _ _
  have h4 : ((L + n - 1) / n - 1) * n = ((L + n - 1) / n) * n - n := by
    rw [Nat.sub_mul, Nat.one_mul]
  rw [h4, h3]
  constructor <;> omega

theorem ceil_div_step (L n : Nat) (hn : 1 ≤ n) (hL : 1 ≤ L) :
    (L + n - 1) / n = (L - n + n - 1) / n + 1 := by
  by_cases h : n ≤ L
  · have e : L + n - 1 = (L - n + n - 1) + n := by omega
    rw [e, Nat.add_div_right _ (by omega)]
  · have e1 : L - n + n - 1 = n - 1 := by omega
    have e2 : (n - 1) / n = 0 := Nat.div_eq_of_lt (by omega)
    rw [e1, e2]
    exact Nat.div_eq_of_lt_le (by omega) (by omega)

/-- The pieces by position: the `j`-th piece is `xs[j*n .. min((j+1)*n, L) - 1]`. -/
theorem chunksOf_index (n : Nat) (hn : 1 ≤ n) :
    ∀ (m : Nat) (xs : List T), xs.length = m →
      chunksOf n xs
        = (List.range ((xs.length + n - 1) / n)).map (fun j => (xs.drop (j * n)).take n) := by
  intro m
  induction m using Nat.strong_induction_on with
  | _ m ih =>
    intro xs hm
    by_cases hx : xs = []
    · subst hx
      have e : (([] : List T).length + n - 1) / n = 0 := by
        apply Nat.div_eq_of_lt
        simp
        omega
      rw [chunksOf_nil, e]
      rfl
    · have hpos : 0 < xs.length := List.length_pos.2 hx
      have hdl : (xs.drop n).length = xs.length - n := List.length_drop n xs
      rw [chunksOf_of_ne_nil n hn xs hx, ih (xs.drop n).length (by omega) (xs.drop n) rfl,
        hdl, ceil_div_step xs.length n hn hpos, List.range_succ_eq_map, List.map_cons,
        List.map_map]
      simp only [Nat.zero_mul, List.drop_zero]
      congr 1
      apply List.map_congr_left
      intro j _
      simp only [Function.comp, List.drop_drop, Nat.succ_eq_add_one]
      congr 2
      rw [Nat.add_mul, Nat.one_mul]
      omega

end ChunksExact

/-- C11, as stated, fails on the empty input: `Chunks` over no elements with
`n = 2` yields one chunk, and that chunk is empty. -/
theorem C11_chunks_empty_counterexample :
    Collect (Chunks (Slice ([] : List Int)) 2) = [[]] := by
  rfl

/-- C11, amended: for every `n ≥ 1` and every finite non-empty input, every
chunk yielded by `Chunks` is non-empty, every chunk but the last has exactly
`n` elements, and the last chunk is shorter than `n` if and only if the
length of the input is not a multiple of `n`, that is, if and only if some
elements remain after the last full chunk. -/
theorem C11_chunks_final_chunk {T : Type} (xs : List T) (n : Nat) (hn : 1 ≤ n)
    (hx : xs ≠ []) :
    (∀ c ∈ Collect (Chunks (Slice xs) (n : Int)), c ≠ [])
      ∧ (∀ c ∈ (Collect (Chunks (Slice xs) (n : Int))).dropLast, c.length = n)
      ∧ (∃ c, (Collect (Chunks (Slice xs) (n : Int))).getLast? = some c
          ∧ (c.length < n ↔ xs.length % n ≠ 0)) := by
  rw [Collect_Chunks_of_ne_nil n hn xs hx]
  obtain ⟨h1, h2, h3⟩ := chunksOf_shape n hn xs.length xs rfl hx
  refine ⟨?_, h2, h3⟩
  intro c hc hnil
  have := (h1 c hc).1
  rw [hnil] at this
  simp at this

/-- The input of `TestChunks`: five elements in chunks of two leave a last
chunk of one element. -/
theorem C11_chunks_final_chunk_witness :
    ∃ c, (Collect (Chunks (Slice ([1, 2, 3, 4, 5] : List Int)) ((2 : Nat) : Int))).getLast?
        = some c ∧ (c.length < 2 ↔ ([1, 2, 3, 4, 5] : List Int).length % 2 ≠ 0) :=
  (C11_chunks_final_chunk ([1, 2, 3, 4, 5] : List Int) 2 (by decide) (by decide)).2.2

/-- C18: for every `n ≥ 1` and every finite input of length `L ≥ 1`, the full
traversal of `Chunks (Slice xs) n` yields exactly `ceil(L / n)` chunks, the
`j`-th (0-based), as handed to the consumer, being
`xs[j*n .. min((j+1)*n, L) - 1]`; every chunk but the last has exactly `n`
elements and the last has between 1 and `n`. -/
theorem C18_chunks_exact {T : Type} (xs : List T) (n : Nat) (hn : 1 ≤ n)
    (hL : 1 ≤ xs.length) :
    Collect (Chunks (Slice xs) (n : Int))
        = (List.range ((xs.length + n - 1) / n)).map (fun j => (xs.drop (j * n)).take n)
      ∧ (Collect (Chunks (Slice xs) (n : Int))).length = (xs.length + n - 1) / n
      ∧ (xs.length ≤ ((xs.length + n - 1) / n) * n
          ∧ ((xs.length + n - 1) / n - 1) * n < xs.length)
      ∧ (∀ c ∈ (Collect (Chunks (Slice xs) (n : Int))).dropLast, c.length = n)
      ∧ (∃ c, (Collect (Chunks (Slice xs) (n : Int))).getLast? = some c
          ∧ 1 ≤ c.length ∧ c.length ≤ n) := by
  have hx : xs ≠ [] := List.length_pos.1 hL
  obtain ⟨h1, h2, c, hc, _⟩ := chunksOf_shape n hn xs.length xs rfl hx
  rw [Collect_Chunks_of_ne_nil n hn xs hx]
  refine ⟨chunksOf_index n hn xs.length xs rfl, ?_, ceil_div_bounds xs.length n hn hL, h2,
    ⟨c, hc, h1 c (List.mem_of_mem_getLast? hc)⟩⟩
  rw [chunksOf_index n hn xs.length xs rfl]
  simp

/-- The input of `TestChunks`: `1, 2, 3, 4, 5` in chunks of two. -/
theorem C18_chunks_exact_witness :
    Collect (Chunks (Slice ([1, 2, 3, 4, 5] : List Int)) ((2 : Nat) : Int))
      = [[1, 2], [3, 4], [5]] :=
  (C18_chunks_exact ([1, 2, 3, 4, 5] : List Int) 2 (by decide) (by decide)).1

/-! ## No invocation after stop in `Windows` and `Chunks` -/

section AfterStop

variable {T σ : Type}

theorem monitor_fresh (yield : σ → List T → σ × Bool) (s : σ) (w : List T) :
    monitor yield (s, false, false) w = (((yield s w).1, !(yield s w).2, false), (yield s w).2) := by
  simp [monitor]

/-- A slice driving the callback of `Windows` for an observed consumer that
has not answered stop yet: the consumer is not invoked after a stop, and if
it has answered stop the buffer is full. -/
theorem sliceLoop_windowsStep_monitor (n : Nat) (hn : 1 ≤ n)
    (yield : σ → List T → σ × Bool) (xs : List T) :
    ∀ (s : σ) (win : List T), win.length ≤ n →
      ∃ s1 stopped win1 b,
        sliceLoop (windowsStep (n : Int) (monitor yield)) xs ((s, false, false), win)
            = (((s1, stopped, false), win1), b)
          ∧ (stopped = true → win1.length = n) := by
  induction xs with
  | nil =>
    intro s win _
    exact ⟨s, false, win, false, rfl, by simp⟩
  | cons x xs ih =>
    intro s win hle
    rw [sliceLoop]
    simp only [windowsStep]
    by_cases c1 : (win.length : Int) < (n : Int) - 1
    · rw [if_pos c1]
      simp only [Bool.not_true, Bool.false_eq_true, if_false]
      exact ih s (win ++ [x]) (by simp; omega)
    · rw [if_neg c1]
      by_cases c2 : (win.length : Int) < (n : Int)
      · rw [if_pos c2]
        have hl : (win ++ [x]).length = n := by simp; omega
        simp only [monitor_fresh]
        by_cases hy : (yield s (win ++ [x])).2 = true
        · simp only [hy, Bool.not_true, Bool.false_eq_true, if_false]
          exact ih _ (win ++ [x]) (by omega)
        · have hy2 : (yield s (win ++ [x])).2 = false := by simpa using hy
          simp only [hy2, Bool.not_false, if_true]
          exact ⟨_, true, win ++ [x], false, rfl, fun _ => hl⟩
      · rw [if_neg c2]
        have hw : win ≠ [] := by
          intro h
          rw [h] at c2
          simp at c2
          omega
        have hl : ((goCopy win (win.drop 1)).set (win.length - 1) x).length = n := by
          rw [goCopy_shift win x hw]
          simp only [List.length_append, List.length_drop, List.length_singleton]
          omega
        simp only [monitor_fresh]
        by_cases hy : (yield s ((goCopy win (win.drop 1)).set (win.length - 1) x)).2 = true
        · simp only [hy, Bool.not_true, Bool.false_eq_true, if_false]
          exact ih _ _ (by omega)
        · have hy2 : (yield s ((goCopy win (win.drop 1)).set (win.length - 1) x)).2 = false := by
            simpa using hy
          simp only [hy2, Bool.not_false, if_true]
          exact ⟨_, true, _, false, rfl, fun _ => hl⟩

/-- The same for the callback of `Chunks`. -/
theorem sliceLoop_chunksStep_monitor (n : Nat) (hn : 1 ≤ n)
    (yield : σ → List T → σ × Bool) (xs : List T) :
    ∀ (s : σ) (win : List T), win.length ≤ n →
      ∃ s1 stopped win1 b,
        sliceLoop (chunksStep (n : Int) (monitor yield)) xs ((s, false, false), win)
            = (((s1, stopped, false), win1), b)
          ∧ (stopped = true → win1.length = n) := by
  induction xs with
  | nil =>
    intro s win _
    exact ⟨s, false, win, false, rfl, by simp⟩
  | cons x xs ih =>
    intro s win hle
    rw [sliceLoop]
    simp only [chunksStep]
    generalize hw : (if (win.length : Int) = (n : Int) then ([] : List T) else win) = w
    have hwl : w.length < n := by
      by_cases c0 : (win.length : Int) = (n : Int)
      · rw [if_pos c0] at hw
        subst hw
        simp
        omega
      · rw [if_neg c0] at hw
        subst hw
        omega
    by_cases c1 : (w.length : Int) < (n : Int) - 1
    · rw [if_pos c1]
      simp only [Bool.not_true, Bool.false_eq_true, if_false]
      exact ih s (w ++ [x]) (by simp; omega)
    · have c2 : (w.length : Int) < (n : Int) := by omega
      rw [if_neg c1, if_pos c2]
      have hl : (w ++ [x]).length = n := by simp; omega
      simp only [monitor_fresh]
      by_cases hy : (yield s (w ++ [x])).2 = true
      · simp only [hy, Bool.not_true, Bool.false_eq_true, if_false]
        exact ih _ (w ++ [x]) (by omega)
      · have hy2 : (yield s (w ++ [x])).2 = false := by simpa using hy
        simp only [hy2, Bool.not_false, if_true]
        exact ⟨_, true, w ++ [x], false, rfl, fun _ => hl⟩

end AfterStop

/-- C19: for every `n ≥ 1`, every finite source `Slice xs` and every consumer,
neither `Windows` nor `Chunks` invokes the consumer after it has answered
stop: the observed consumer ends without an invocation after a stop, the
trailing flush included.  An invocation after a stop would show on a finite
run, so this covers unbounded sources that honour the stop answer too. -/
theorem C19_no_yield_after_stop {T σ : Type} (xs : List T) (n : Nat) (hn : 1 ≤ n)
    (yield : σ → List T → σ × Bool) (st : σ) :
    (Windows (Slice xs) (n : Int) (σ × Bool × Bool) (monitor yield)
        (st, false, false)).1.2.2 = false
      ∧ (Chunks (Slice xs) (n : Int) (σ × Bool × Bool) (monitor yield)
          (st, false, false)).1.2.2 = false := by
  constructor
  · obtain ⟨s1, stopped, win1, b, h, hs⟩ :=
      sliceLoop_windowsStep_monitor n hn yield xs st [] (by simp)
    simp only [Windows, Slice]
    rw [h]
    by_cases c : (win1.length : Int) < (n : Int)
    · have hst : stopped = false := by
        cases stopped
        · rfl
        · have := hs rfl
          omega
      subst hst
      rw [if_pos c]
      simp [monitor]
    · rw [if_neg c]
  · obtain ⟨s1, stopped, win1, b, h, hs⟩ :=
      sliceLoop_chunksStep_monitor n hn yield xs st [] (by simp)
    simp only [Chunks, Slice]
    rw [h]
    by_cases c : (win1.length : Int) < (n : Int)
    · have hst : stopped = false := by
        cases stopped
        · rfl
        · have := hs rfl
          omega
      subst hst
      rw [if_pos c]
      simp [monitor]
    · rw [if_neg c]

/-- A consumer that answers stop on its first window: it is invoked once by
`Windows` and once by `Chunks` over `1, 2, 3, 4, 5` with `n = 2`, and not
again. -/
theorem C19_no_yield_after_stop_witness :
    (Windows (Slice ([1, 2, 3, 4, 5] : List Int)) ((2 : Nat) : Int)
        (List (List Int) × Bool × Bool) (monitor (stopAt 1)) ([], false, false)).1.2.2 = false
      ∧ (Chunks (Slice ([1, 2, 3, 4, 5] : List Int)) ((2 : Nat) : Int)
          (List (List Int) × Bool × Bool) (monitor (stopAt 1)) ([], false, false)).1.2.2
        = false :=
  C19_no_yield_after_stop ([1, 2, 3, 4, 5] : List Int) 2 (by decide) (stopAt 1) []

/-! ## `Merge` with its arguments exchanged -/

section MergeComm

variable {T : Type} [LinearOrder T]

theorem cmpCompare_neg_iff (x y : T) : cmpCompare x y < 0 ↔ x < y := by
  unfold cmpCompare
  by_cases h1 : x < y
  · simp [h1]
  · by_cases h2 : x > y <;> simp [h1, h2]

theorem cmpCompare_pos_iff (x y : T) : cmpCompare x y > 0 ↔ y < x := by
  unfold cmpCompare
  by_cases h1 : x < y
  · simp [h1, not_lt_of_lt h1]
  · by_cases h2 : x > y
    · simp [h1, h2]
    · simp [h1, h2]

theorem refMerge_cmpCompare_comm (A B : List T) :
    refMerge cmpCompare A B = refMerge cmpCompare B A := by
  induction A, B using refMerge.induct (cmpCompare : T → T → Int) with
  | case1 B => rw [refMerge_nil_right]; simp [refMerge]
  | case2 a A => simp [refMerge]
  | case3 a A b B hlt ih =>
    have hab : a < b := (cmpCompare_neg_iff a b).1 hlt
    have h1 : ¬ cmpCompare b a < 0 := by
      rw [cmpCompare_neg_iff]; exact not_lt_of_lt hab
    have h2 : cmpCompare b a > 0 := (cmpCompare_pos_iff b a).2 hab
    rw [refMerge, if_pos hlt, refMerge, if_neg h1, if_pos h2, ih]
  | case4 a A b B hlt hgt ih =>
    have hba : b < a := (cmpCompare_pos_iff a b).1 hgt
    have h1 : cmpCompare b a < 0 := (cmpCompare_neg_iff b a).2 hba
    rw [refMerge, if_neg hlt, if_pos hgt, refMerge, if_pos h1, ih]
  | case5 a A b B hlt hgt ih =>
    have h1 : ¬ a < b := fun h => hlt ((cmpCompare_neg_iff a b).2 h)
    have h2 : ¬ b < a := fun h => hgt ((cmpCompare_pos_iff a b).2 h)
    have hab : a = b := le_antisymm (not_lt.1 h2) (not_lt.1 h1)
    subst hab
    rw [refMerge, if_neg hlt, if_neg hgt, refMerge, if_neg hlt, if_neg hgt, ih]

end MergeComm

/-- C20: over a linearly ordered element type (integers with `cmp.Compare`),
for all finite inputs `A` and `B`, sorted or not, the full traversal of
`Merge (Slice A) (Slice B)` equals, element for element, that of
`Merge (Slice B) (Slice A)`. -/
theorem C20_merge_comm {T : Type} [LinearOrder T] [Inhabited T] (A B : List T) :
    Collect (Merge (Slice A) (Slice B)) = Collect (Merge (Slice B) (Slice A)) := by
  rw [Collect_Merge, Collect_Merge, Collect_Slice, Collect_Slice]
  exact refMerge_cmpCompare_comm A B

end Xiter
